import Mathlib

/-!
Verification of the collector graph of gc.cpp (a library-level tracing
garbage collector).  Byte addresses are modelled as natural numbers, with
0 playing the role of the null pointer.  The address-interval index, the
snapshot phase, the mark loop and the sweep of graph::collect_impl are
translated function by function from src/gc/gc.cpp.
-/

set_option maxHeartbeats 1000000

namespace GcGraph

/-! ### Small list helpers (indexing used by the C++ vectors) -/

/-- nthD l i d is l[i], or d when i is out of bounds. -/
def nthD {α : Type} (l : List α) (i : Nat) (d : α) : α :=
  match l, i with
  | [], _ => d
  | a :: _, 0 => a
  | _ :: t, n + 1 => nthD t n d

/-- setIdx l i a overwrites position i of l (no-op when out of bounds). -/
def setIdx {α : Type} (l : List α) (i : Nat) (a : α) : List α :=
  match l, i with
  | [], _ => []
  | _ :: t, 0 => a :: t
  | b :: t, n + 1 => b :: setIdx t n a

theorem length_setIdx {α : Type} (l : List α) (i : Nat) (a : α) :
    (setIdx l i a).length = l.length := by
  induction l generalizing i with
  | nil => rfl
  | cons b t ih =>
    cases i with
    | zero => rfl
    | succ n => simp [setIdx, ih]

theorem nthD_setIdx_self {α : Type} (l : List α) (i : Nat) (a d : α)
    (h : i < l.length) : nthD (setIdx l i a) i d = a := by
  induction l generalizing i with
  | nil => simp at h
  | cons b t ih =>
    cases i with
    | zero => rfl
    | succ n =>
      simp only [List.length_cons, Nat.succ_lt_succ_iff] at h
      exact ih n h

theorem nthD_setIdx_ne {α : Type} (l : List α) (i j : Nat) (a d : α)
    (h : j ≠ i) : nthD (setIdx l i a) j d = nthD l j d := by
  induction l generalizing i j with
  | nil => rfl
  | cons b t ih =>
    cases i with
    | zero =>
      cases j with
      | zero => exact absurd rfl h
      | succ m => rfl
    | succ n =>
      cases j with
      | zero => rfl
      | succ m =>
        exact ih n m (fun hc => h (congrArg Nat.succ hc))

theorem nthD_append_lt {α : Type} (l₁ l₂ : List α) (i : Nat) (d : α)
    (h : i < l₁.length) : nthD (l₁ ++ l₂) i d = nthD l₁ i d := by
  induction l₁ generalizing i with
  | nil => simp at h
  | cons a t ih =>
    cases i with
    | zero => rfl
    | succ n =>
      simp only [List.length_cons, Nat.succ_lt_succ_iff] at h
      exact ih n h

theorem nthD_append_ge {α : Type} (l₁ l₂ : List α) (i : Nat) (d : α)
    (h : l₁.length ≤ i) : nthD (l₁ ++ l₂) i d = nthD l₂ (i - l₁.length) d := by
  induction l₁ generalizing i with
  | nil => simp [nthD]
  | cons a t ih =>
    cases i with
    | zero => simp at h
    | succ n =>
      simp only [List.length_cons, Nat.succ_le_succ_iff] at h
      simpa [nthD] using ih n h

theorem nthD_oob {α : Type} (l : List α) (i : Nat) (d : α)
    (h : l.length ≤ i) : nthD l i d = d := by
  induction l generalizing i with
  | nil => rfl
  | cons a t ih =>
    cases i with
    | zero => simp at h
    | succ n =>
      simp only [List.length_cons, Nat.succ_le_succ_iff] at h
      exact ih n h

theorem nthD_mem {α : Type} (l : List α) (i : Nat) (d : α) (h : i < l.length) :
    nthD l i d ∈ l := by
  induction l generalizing i with
  | nil => simp at h
  | cons a t ih =>
    cases i with
    | zero => exact List.mem_cons_self _ _
    | succ n =>
      simp only [List.length_cons, Nat.succ_lt_succ_iff] at h
      exact List.mem_cons_of_mem _ (ih n h)

theorem mem_iff_nthD {α : Type} (l : List α) (a d : α) :
    a ∈ l ↔ ∃ i, i < l.length ∧ nthD l i d = a := by
  constructor
  · intro h
    induction l with
    | nil => simp at h
    | cons b t ih =>
      rcases List.mem_cons.mp h with h1 | h2
      · exact ⟨0, by simp [nthD, h1.symm]⟩
      · obtain ⟨i, hi, hv⟩ := ih h2
        exact ⟨i + 1, by simpa using hi, hv⟩
  · rintro ⟨i, hi, rfl⟩
    exact nthD_mem l i d hi

theorem pairwise_nthD {α : Type} {R : α → α → Prop} {l : List α}
    (h : l.Pairwise R) (i j : Nat) (d : α) (hij : i < j) (hj : j < l.length) :
    R (nthD l i d) (nthD l j d) := by
  induction l generalizing i j with
  | nil => simp at hj
  | cons a t ih =>
    rcases List.pairwise_cons.mp h with ⟨ha, ht⟩
    cases i with
    | zero =>
      cases j with
      | zero => omega
      | succ m =>
        simp only [List.length_cons, Nat.succ_lt_succ_iff] at hj
        exact ha _ (nthD_mem t m d hj)
    | succ n =>
      cases j with
      | zero => omega
      | succ m =>
        simp only [List.length_cons, Nat.succ_lt_succ_iff] at hj
        exact ih ht n m (by omega) hj

theorem filter_split_length {α : Type} (p : α → Bool) (l : List α) :
    (l.filter p).length + (l.filter (fun x => !p x)).length = l.length := by
  induction l with
  | nil => rfl
  | cons a t ih =>
    by_cases h : p a <;> simp [List.filter, h, ih] <;> omega

theorem mem_filter_split {α : Type} (p : α → Bool) (l : List α) (a : α)
    (h : a ∈ l) : a ∈ l.filter p ∨ a ∈ l.filter (fun x => !p x) := by
  by_cases hp : p a
  · exact Or.inl (List.mem_filter.mpr ⟨h, hp⟩)
  · exact Or.inr (List.mem_filter.mpr ⟨h, by simpa using hp⟩)

/-! ### Address-interval index (memory_range, §4.1; gc.cpp lines 60-79, 231-268) -/

/-- A managed allocation byte interval.  The C++ fields are called begin and
end; those are not usable as Lean field names, hence rbegin and rend. -/
structure memory_range where
  rbegin : Nat
  rend : Nat
deriving DecidableEq, Repr, Inhabited

/-- a lies in the half-open interval of r (interval membership of the data
model, used by the mark loop). -/
abbrev inHalf (a : Nat) (r : memory_range) : Prop := r.rbegin ≤ a ∧ a < r.rend

/-- a lies in the closed interval of r (the inclusive containment test of
find_range_iterator). -/
abbrev inClosed (a : Nat) (r : memory_range) : Prop := r.rbegin ≤ a ∧ a ≤ r.rend

/-- std::upper_bound over the begin addresses with comparator p < r.begin:
the index of the first range whose begin exceeds p (the linear rendering of
the binary search; they agree on the sorted sequences the index maintains). -/
def upper_bound (l : List memory_range) (p : Nat) : Nat :=
  match l with
  | [] => 0
  | r :: rest => if p < r.rbegin then 0 else upper_bound rest p + 1

/-- graph::find_range_iterator (gc.cpp 242-268): containment query returning
the index of the attributed range (none models the end iterator). -/
def find_range_iterator (l : List memory_range) (p : Nat) : Option Nat :=
  if p = 0 then none
  else if l.isEmpty then none
  else if (l.headD default).rbegin ≤ p ∧ p ≤ ((l.getLast?).getD default).rend then
    if upper_bound l p ≠ 0 then
      if (nthD l (upper_bound l p - 1) default).rbegin ≤ p ∧
          p ≤ (nthD l (upper_bound l p - 1) default).rend then
        some (upper_bound l p - 1)
      else none
    else none
  else none

/-- graph::find_range (gc.cpp 231-240): copy of the range found, if any. -/
def find_range (l : List memory_range) (p : Nat) : Option memory_range :=
  (find_range_iterator l p).map (fun j => nthD l j default)

/-- graph::add_range (gc.cpp 60-70): insert the new interval at the position
determined by upper_bound of p against the existing begin addresses. -/
def add_range (l : List memory_range) (p size : Nat) : List memory_range :=
  match l with
  | [] => [⟨p, p + size⟩]
  | r :: rest =>
    if p < r.rbegin then ⟨p, p + size⟩ :: r :: rest
    else r :: add_range rest p size

/-- graph::remove_range (gc.cpp 72-79): erase the range found by the
containment search.  none models the asserted case (iterator = end). -/
def remove_range (l : List memory_range) (p : Nat) : Option (List memory_range) :=
  match find_range_iterator l p with
  | some j => some (l.eraseIdx j)
  | none => none

/-! ### Basic facts about upper_bound and find_range_iterator -/

theorem upper_bound_le (l : List memory_range) (p : Nat) :
    upper_bound l p ≤ l.length := by
  induction l with
  | nil => simp [upper_bound]
  | cons r rest ih =>
    simp only [upper_bound]
    by_cases h : p < r.rbegin <;> simp [h] <;> omega

theorem upper_bound_prefix_le (l : List memory_range) (p : Nat) (j : Nat)
    (h : j < upper_bound l p) : (nthD l j default).rbegin ≤ p := by
  induction l generalizing j with
  | nil => simp [upper_bound] at h
  | cons r rest ih =>
    simp only [upper_bound] at h
    by_cases hc : p < r.rbegin
    · simp [hc] at h
    · simp only [if_neg hc] at h
      cases j with
      | zero => simpa [nthD] using Nat.le_of_not_lt hc
      | succ n => exact ih n (by omega)

theorem upper_bound_next_gt (l : List memory_range) (p : Nat)
    (h : upper_bound l p < l.length) :
    p < (nthD l (upper_bound l p) default).rbegin := by
  induction l with
  | nil => simp at h
  | cons r rest ih =>
    simp only [upper_bound] at h ⊢
    by_cases hc : p < r.rbegin
    · simpa [hc, nthD] using hc
    · simp only [if_neg hc, List.length_cons] at h ⊢
      simpa [nthD] using ih (by omega)

/-- If the containment search answers, the answer is an in-bounds index whose
range contains p in the closed sense. -/
theorem find_range_iterator_some (l : List memory_range) (p : Nat) (j : Nat)
    (h : find_range_iterator l p = some j) :
    p ≠ 0 ∧ j < l.length ∧ inClosed p (nthD l j default) := by
  unfold find_range_iterator at h
  split at h
  · simp at h
  split at h
  · simp at h
  split at h
  · split at h
    · split at h
      · simp only [Option.some.injEq] at h
        subst h
        refine ⟨by assumption, ?_, by assumption⟩
        have := upper_bound_le l p
        omega
      · simp at h
    · simp at h
  · simp at h

/-! ### The index invariant (spec I1/I2: sorted, pairwise disjoint, end > begin) -/

/-- Every range is a genuine interval (spec: end > begin). -/
abbrev wf_ranges (l : List memory_range) : Prop := ∀ r ∈ l, r.rbegin < r.rend

/-- The index is sorted with pairwise disjoint half-open intervals. -/
abbrev ordered_ranges (l : List memory_range) : Prop :=
  l.Pairwise (fun a b => a.rend ≤ b.rbegin)

/-- Index invariant maintained by add_range / remove_range. -/
abbrev index_inv (l : List memory_range) : Prop := wf_ranges l ∧ ordered_ranges l

theorem begins_lt {l : List memory_range} (h : index_inv l) {i j : Nat}
    (hij : i < j) (hj : j < l.length) :
    (nthD l i default).rbegin < (nthD l j default).rbegin := by
  have h1 := pairwise_nthD h.2 i j default hij hj
  have h2 := h.1 _ (nthD_mem l i default (lt_trans hij hj))
  omega

theorem begins_le {l : List memory_range} (h : index_inv l) {i j : Nat}
    (hij : i ≤ j) (hj : j < l.length) :
    (nthD l i default).rbegin ≤ (nthD l j default).rbegin := by
  rcases Nat.lt_or_ge i j with h' | h'
  · exact Nat.le_of_lt (begins_lt h h' hj)
  · have : i = j := by omega
    subst this; exact le_refl _

theorem ends_le_last {l : List memory_range} (h : index_inv l) {i : Nat}
    (hi : i < l.length) :
    (nthD l i default).rend ≤ (nthD l (l.length - 1) default).rend := by
  rcases Nat.lt_or_ge i (l.length - 1) with h' | h'
  · have h1 := pairwise_nthD h.2 i (l.length - 1) default h' (by omega)
    have h2 := h.1 _ (nthD_mem l (l.length - 1) default (by omega))
    omega
  · have : i = l.length - 1 := by omega
    subst this; exact le_refl _

theorem headD_eq_nthD (l : List memory_range) (h : l ≠ []) :
    l.headD default = nthD l 0 default := by
  cases l with
  | nil => exact absurd rfl h
  | cons a t => rfl

theorem getLast_eq_nthD (l : List memory_range) (h : l ≠ []) :
    (l.getLast?).getD default = nthD l (l.length - 1) default := by
  induction l with
  | nil => exact absurd rfl h
  | cons a t ih =>
    cases t with
    | nil => rfl
    | cons b t2 =>
      simpa [List.getLast?_cons_cons, nthD] using ih (by simp)

/-- Backward containment lemma: under the index invariant, an address lying in
some range (closed sense) is found; the index found is at least i, and can
exceed i only at a shared boundary (p equal to the end of range i and the
begin of the found range). -/
theorem find_range_iterator_mem {l : List memory_range} (hinv : index_inv l)
    {i : Nat} (hi : i < l.length) {p : Nat} (hp : p ≠ 0)
    (hcl : inClosed p (nthD l i default)) :
    ∃ j, find_range_iterator l p = some j ∧ i ≤ j ∧ j < l.length ∧
      inClosed p (nthD l j default) ∧
      (j ≠ i → p = (nthD l j default).rbegin ∧ p = (nthD l i default).rend) := by
  have hne : l ≠ [] := by
    intro hc; subst hc; simp at hi
  have hub_le := upper_bound_le l p
  -- the upper bound strictly exceeds i
  have hub_gt : i < upper_bound l p := by
    by_contra hc
    have h1 : upper_bound l p < l.length := by omega
    have h2 := upper_bound_next_gt l p h1
    have h3 := begins_le hinv (Nat.le_of_not_lt hc) hi
    omega
  set j := upper_bound l p - 1 with hj
  have hjlt : j < l.length := by omega
  have hjge : i ≤ j := by omega
  have hbj : (nthD l j default).rbegin ≤ p := upper_bound_prefix_le l p j (by omega)
  have hclj : inClosed p (nthD l j default) := by
    rcases Nat.eq_or_lt_of_le hjge with he | hlt
    · subst he; exact hcl
    · have h1 := pairwise_nthD hinv.2 i j default hlt hjlt
      have h2 := hinv.1 _ (nthD_mem l j default hjlt)
      exact ⟨hbj, by omega⟩
  have hextra : j ≠ i → p = (nthD l j default).rbegin ∧ p = (nthD l i default).rend := by
    intro hne'
    have hlt : i < j := by omega
    have h1 := pairwise_nthD hinv.2 i j default hlt hjlt
    constructor <;> omega
  refine ⟨j, ?_, hjge, hjlt, hclj, hextra⟩
  have henv1 : (l.headD default).rbegin ≤ p := by
    rw [headD_eq_nthD l hne]
    have := begins_le hinv (Nat.zero_le i) hi
    omega
  have henv2 : p ≤ ((l.getLast?).getD default).rend := by
    rw [getLast_eq_nthD l hne]
    have := ends_le_last hinv hi
    omega
  unfold find_range_iterator
  rw [if_neg hp, if_neg (by simpa using hne), if_pos ⟨henv1, henv2⟩,
    if_pos (by omega : upper_bound l p ≠ 0), if_pos hclj]

/-- An address attributed to range j is in the half-open interior of no other
range (under the index invariant). -/
theorem find_range_iterator_unique {l : List memory_range} (hinv : index_inv l)
    {p : Nat} {j : Nat} (h : find_range_iterator l p = some j)
    {i : Nat} (hi : i < l.length) (hne : i ≠ j) :
    ¬ inHalf p (nthD l i default) := by
  obtain ⟨hp, hjlt, hclj⟩ := find_range_iterator_some l p j h
  intro hhalf
  rcases Nat.lt_or_ge i j with hlt | hge
  · have h1 := pairwise_nthD hinv.2 i j default hlt hjlt
    have := hclj.1
    omega
  · have hlt : j < i := by omega
    -- i ≥ upper_bound l p, so its begin exceeds p
    have hju : j = upper_bound l p - 1 := by
      unfold find_range_iterator at h
      split at h
      · simp at h
      split at h
      · simp at h
      split at h
      · split at h
        · split at h
          · simpa using h.symm
          · simp at h
        · simp at h
      · simp at h
    have hub_le := upper_bound_le l p
    have hub_ne : upper_bound l p ≠ 0 := by
      unfold find_range_iterator at h
      split at h
      · simp at h
      split at h
      · simp at h
      split at h
      · split at h
        · assumption
        · simp at h
      · simp at h
    have hge' : upper_bound l p ≤ i := by omega
    rcases Nat.eq_or_lt_of_le hge' with he | hlt'
    · have h3 := upper_bound_next_gt l p (by omega)
      rw [he] at h3
      have := hhalf.1
      omega
    · have h1 := upper_bound_next_gt l p (by omega)
      have h2 := begins_le hinv (by omega : upper_bound l p ≤ i) hi
      have := hhalf.1
      omega

/-! ### Claim C3: containment soundness of find_range -/

/-- C3: under the index invariant, for a non-null address a, find_range a
returns r iff a lies in the closed interval of r and no other range contains
a (containment of the data model, i.e. the half-open interval); find_range
returns none on a null address, an empty index, or an address outside the
envelope of front.begin .. back.end. -/
theorem c3_find_range_spec (l : List memory_range) (hinv : index_inv l) (a : Nat) :
    (a ≠ 0 → ∀ r : memory_range,
      (find_range l a = some r ↔
        r ∈ l ∧ inClosed a r ∧ ∀ r' ∈ l, r' ≠ r → ¬ inHalf a r'))
    ∧ (a = 0 → find_range l a = none)
    ∧ (l = [] → find_range l a = none)
    ∧ (l ≠ [] →
        (a < (l.headD default).rbegin ∨ ((l.getLast?).getD default).rend < a) →
        find_range l a = none) := by
  refine ⟨?_, ?_, ?_, ?_⟩
  · intro ha r
    constructor
    · intro h
      obtain ⟨j, hj, hr⟩ : ∃ j, find_range_iterator l a = some j ∧ nthD l j default = r := by
        unfold find_range at h
        cases hfi : find_range_iterator l a with
        | none => rw [hfi] at h; simp at h
        | some j => rw [hfi] at h; simp at h; exact ⟨j, rfl, h⟩
      obtain ⟨-, hjlt, hclj⟩ := find_range_iterator_some l a j hj
      subst hr
      refine ⟨nthD_mem l j default hjlt, hclj, ?_⟩
      intro r' hr' hner'
      obtain ⟨i, hilt, hiv⟩ := (mem_iff_nthD l r' default).mp hr'
      have hne : i ≠ j := by
        intro hc; subst hc; exact hner' hiv.symm
      rw [← hiv]
      exact find_range_iterator_unique hinv hj hilt hne
    · rintro ⟨hmem, hcl, hother⟩
      obtain ⟨i, hilt, hiv⟩ := (mem_iff_nthD l r default).mp hmem
      obtain ⟨j, hj, hij, hjlt, hclj, hextra⟩ :=
        find_range_iterator_mem hinv hilt ha (by rw [hiv]; exact hcl)
      have hji : j = i := by
        by_contra hc
        obtain ⟨hb, he⟩ := hextra hc
        have hwfj := hinv.1 _ (nthD_mem l j default hjlt)
        have hhalf : inHalf a (nthD l j default) := ⟨hclj.1, by omega⟩
        have hnej : nthD l j default ≠ r := by
          intro hcc
          have hlt : i < j := by omega
          have := begins_lt hinv hlt hjlt
          rw [hcc, hiv] at this
          omega
        exact hother _ (nthD_mem l j default hjlt) hnej hhalf
      unfold find_range
      rw [hj, hji]
      simp [hiv]
  · intro ha
    subst ha
    unfold find_range find_range_iterator
    simp
  · intro hl
    subst hl
    unfold find_range find_range_iterator
    simp
  · intro hne henv
    by_cases hp : a = 0
    · unfold find_range find_range_iterator
      simp [hp]
    · unfold find_range find_range_iterator
      rw [if_neg hp, if_neg (by simpa using hne),
        if_neg (by rintro ⟨h1, h2⟩; rcases henv with h | h <;> omega)]
      simp

/-- C3 witness: a two-range index, queried inside the second range. -/
theorem c3_witness :
    find_range [⟨10, 20⟩, ⟨30, 40⟩] 35 = some ⟨30, 40⟩ :=
  ((c3_find_range_spec [⟨10, 20⟩, ⟨30, 40⟩] (by constructor <;> decide) 35).1
    (by decide) ⟨30, 40⟩).mpr (by decide)

/-! ### Claim C4: remove_range -/

/-- C4 counterexample: the claim says removing a pointer that is not the
begin of any present range is an asserted usage error; the code instead
erases the range that merely contains the pointer (there is no equality
check against begin).  Here 15 is not the begin of any range, yet
remove_range deletes the surrounding range instead of hitting the assert
(which the model renders as none). -/
theorem c4_counterexample :
    remove_range [⟨10, 20⟩] 15 = some [] ∧
      (∀ r ∈ ([⟨10, 20⟩] : List memory_range), r.rbegin ≠ 15) := by
  decide

/-- C4 amended: for a non-null pointer p under the index invariant,
remove_range p erases exactly the range that contains p under find_range's
inclusive containment test, leaving every other range unchanged (clause 1);
in particular it erases the range whose begin equals p whenever p is the
begin of a present range (clause 2); and the asserted usage error (modelled
as none) happens when p lies in no range in the closed sense (clause 3) and
ONLY then (clause 4) - there is no equality check of p against the erased
range's begin. -/
theorem c4_amended_thm (l : List memory_range) (hinv : index_inv l) (p : Nat)
    (hp : p ≠ 0) :
    ((∃ r ∈ l, inClosed p r) → ∃ j, j < l.length ∧
      find_range_iterator l p = some j ∧ inClosed p (nthD l j default) ∧
      remove_range l p = some (l.eraseIdx j)) ∧
    (∀ i, i < l.length → p = (nthD l i default).rbegin →
      remove_range l p = some (l.eraseIdx i)) ∧
    ((∀ r ∈ l, ¬ inClosed p r) → remove_range l p = none) ∧
    (remove_range l p = none → ∀ r ∈ l, ¬ inClosed p r) := by
  have hsucc : ∀ r ∈ l, inClosed p r → ∃ j, j < l.length ∧
      find_range_iterator l p = some j ∧ inClosed p (nthD l j default) ∧
      remove_range l p = some (l.eraseIdx j) := by
    intro r hr hcl
    obtain ⟨i, hi, hiv⟩ := (mem_iff_nthD l r default).mp hr
    obtain ⟨j, hj, hij, hjlt, hclj, -⟩ :=
      find_range_iterator_mem hinv hi hp (by rw [hiv]; exact hcl)
    refine ⟨j, hjlt, hj, hclj, ?_⟩
    unfold remove_range
    rw [hj]
  refine ⟨?_, ?_, ?_, ?_⟩
  · rintro ⟨r, hr, hcl⟩
    exact hsucc r hr hcl
  · intro i hi hpv
    have hwf := hinv.1 _ (nthD_mem l i default hi)
    have hcl : inClosed p (nthD l i default) := ⟨le_of_eq hpv.symm, by omega⟩
    obtain ⟨j, hj, hij, hjlt, hclj, hextra⟩ := find_range_iterator_mem hinv hi hp hcl
    have hji : j = i := by
      by_contra hc
      obtain ⟨-, he⟩ := hextra hc
      omega
    unfold remove_range
    rw [hj, hji]
  · intro hnone
    unfold remove_range
    cases hfi : find_range_iterator l p with
    | none => rfl
    | some j =>
      obtain ⟨-, hjlt, hclj⟩ := find_range_iterator_some l p j hfi
      exact absurd hclj (hnone _ (nthD_mem l j default hjlt))
  · intro hnone r hr hcl
    obtain ⟨j, -, -, -, hrm⟩ := hsucc r hr hcl
    rw [hrm] at hnone
    simp at hnone

/-- C4 amended witness: removing the interior pointer 35 of a two-range
index erases exactly the containing range, with no assert. -/
theorem c4_witness :
    ∃ j, j < ([⟨10, 20⟩, ⟨30, 40⟩] : List memory_range).length ∧
      find_range_iterator [⟨10, 20⟩, ⟨30, 40⟩] 35 = some j ∧
      inClosed 35 (nthD [⟨10, 20⟩, ⟨30, 40⟩] j default) ∧
      remove_range [⟨10, 20⟩, ⟨30, 40⟩] 35 =
        some (([⟨10, 20⟩, ⟨30, 40⟩] : List memory_range).eraseIdx j) :=
  (c4_amended_thm [⟨10, 20⟩, ⟨30, 40⟩] (by constructor <;> decide) 35 (by decide)).1
    ⟨⟨30, 40⟩, by decide, by decide⟩

/-! ### Claim C6: the index invariant over add_range / remove_range sequences -/

/-- The interval to be added is disjoint from every present range. -/
abbrev disjointFrom (l : List memory_range) (p n : Nat) : Prop :=
  ∀ r ∈ l, p + n ≤ r.rbegin ∨ r.rend ≤ p

theorem add_range_mem (l : List memory_range) (p n : Nat) (x : memory_range)
    (h : x ∈ add_range l p n) : x ∈ l ∨ x = ⟨p, p + n⟩ := by
  induction l with
  | nil => simpa [add_range] using h
  | cons r rest ih =>
    simp only [add_range] at h
    by_cases hc : p < r.rbegin
    · rw [if_pos hc] at h
      rcases List.mem_cons.mp h with h1 | h2
      · exact Or.inr h1
      · exact Or.inl h2
    · rw [if_neg hc] at h
      rcases List.mem_cons.mp h with h1 | h2
      · exact Or.inl (List.mem_cons.mpr (Or.inl h1))
      · rcases ih h2 with h3 | h4
        · exact Or.inl (List.mem_cons.mpr (Or.inr h3))
        · exact Or.inr h4

theorem index_inv_add (p n : Nat) (hn : 0 < n) :
    ∀ l : List memory_range, index_inv l → disjointFrom l p n →
      index_inv (add_range l p n) := by
  intro l
  induction l with
  | nil =>
    intro _ _
    exact ⟨by intro r hr; simp [add_range] at hr; subst hr; simpa using hn,
      by simp [add_range]⟩
  | cons r rest ih =>
    intro hinv hd
    obtain ⟨hwf, hord⟩ := hinv
    rcases List.pairwise_cons.mp hord with ⟨ha, ht⟩
    have hwfr := hwf r (List.mem_cons_self _ _)
    have hwft : wf_ranges rest := fun x hx => hwf x (List.mem_cons_of_mem _ hx)
    simp only [add_range]
    by_cases hc : p < r.rbegin
    · rw [if_pos hc]
      refine ⟨?_, ?_⟩
      · intro x hx
        rcases List.mem_cons.mp hx with h1 | h2
        · subst h1; simpa using hn
        · exact hwf x h2
      · refine List.pairwise_cons.mpr ⟨?_, hord⟩
        intro x hx
        rcases List.mem_cons.mp hx with h1 | h2
        · rw [h1]
          rcases hd r (List.mem_cons_self _ _) with h3 | h3
          · simpa using h3
          · omega
        · rcases hd x (List.mem_cons_of_mem _ h2) with h3 | h3
          · simpa using h3
          · have := ha x h2
            have := hwf x (List.mem_cons_of_mem _ h2)
            omega
    · rw [if_neg hc]
      have hrle : r.rend ≤ p := by
        rcases hd r (List.mem_cons_self _ _) with h3 | h3
        · omega
        · exact h3
      have hd' : disjointFrom rest p n := fun x hx => hd x (List.mem_cons_of_mem _ hx)
      obtain ⟨hwf2, hord2⟩ := ih ⟨hwft, ht⟩ hd'
      refine ⟨?_, ?_⟩
      · intro x hx
        rcases List.mem_cons.mp hx with h1 | h2
        · subst h1; exact hwfr
        · exact hwf2 x h2
      · refine List.pairwise_cons.mpr ⟨?_, hord2⟩
        intro x hx
        rcases add_range_mem rest p n x hx with h1 | h2
        · exact ha x h1
        · subst h2; simpa using hrle

theorem index_inv_erase {l : List memory_range} (hinv : index_inv l) (i : Nat) :
    index_inv (l.eraseIdx i) := by
  have hsub : List.Sublist (l.eraseIdx i) l := List.eraseIdx_sublist l i
  exact ⟨fun r hr => hinv.1 r (hsub.subset hr), hinv.2.sublist hsub⟩

/-- One mutation of the range index. -/
inductive gc_op where
  | add (p n : Nat)
  | remove (p : Nat)
deriving DecidableEq, Repr

/-- Apply one call.  A remove_range call whose assert would fire leaves the
index unchanged (the erase is never reached). -/
def applyOp (l : List memory_range) : gc_op → List memory_range
  | .add p n => add_range l p n
  | .remove p => (remove_range l p).getD l

def applyOps (l : List memory_range) : List gc_op → List memory_range
  | [] => l
  | op :: rest => applyOps (applyOp l op) rest

/-- The precondition of the claim: every added range is nonempty and
disjoint from all ranges present at the time of its addition. -/
def okOps (l : List memory_range) : List gc_op → Prop
  | [] => True
  | .add p n :: rest => 0 < n ∧ disjointFrom l p n ∧ okOps (applyOp l (.add p n)) rest
  | .remove p :: rest => okOps (applyOp l (.remove p)) rest

instance decOkOps : (ops : List gc_op) → (l : List memory_range) →
    Decidable (okOps l ops)
  | [], _ => .isTrue trivial
  | .add p n :: rest, l =>
    have : Decidable (okOps (applyOp l (.add p n)) rest) := decOkOps rest _
    inferInstanceAs
      (Decidable (0 < n ∧ disjointFrom l p n ∧ okOps (applyOp l (.add p n)) rest))
  | .remove p :: rest, l =>
    have : Decidable (okOps (applyOp l (.remove p)) rest) := decOkOps rest _
    inferInstanceAs (Decidable (okOps (applyOp l (.remove p)) rest))

theorem index_inv_applyOps {l : List memory_range} (hinv : index_inv l)
    {ops : List gc_op} (hok : okOps l ops) : index_inv (applyOps l ops) := by
  induction ops generalizing l with
  | nil => exact hinv
  | cons op rest ih =>
    cases op with
    | add p n =>
      obtain ⟨hn, hd, hrest⟩ := hok
      exact ih (index_inv_add p n hn l hinv hd) hrest
    | remove p =>
      refine ih ?_ hok
      have hra : applyOp l (.remove p) = (remove_range l p).getD l := rfl
      rw [hra]
      unfold remove_range
      cases hfi : find_range_iterator l p with
      | none => simp only [hfi]; simpa using hinv
      | some j => simp only [hfi]; simpa using index_inv_erase hinv j

/-- C6: after any sequence of add_range / remove_range calls in which every
added range is disjoint from the ranges present at its addition, the index is
sorted by strictly increasing begin and its ranges are pairwise disjoint. -/
theorem c6_thm (l : List memory_range) (ops : List gc_op) (hinv : index_inv l)
    (hok : okOps l ops) :
    (applyOps l ops).Pairwise (fun a b =>
      a.rbegin < b.rbegin ∧ (a.rend ≤ b.rbegin ∨ b.rend ≤ a.rbegin)) := by
  obtain ⟨hwf, hord⟩ := index_inv_applyOps hinv hok
  refine List.Pairwise.imp_of_mem ?_ hord
  intro a b hma hmb hr
  have := hwf a hma
  exact ⟨by omega, Or.inl hr⟩

/-- C6 witness: a concrete sequence of two adds and a remove starting from
the empty index. -/
theorem c6_witness :
    (applyOps [] [gc_op.add 30 7, gc_op.add 10 5, gc_op.remove 30]).Pairwise
      (fun a b => a.rbegin < b.rbegin ∧ (a.rend ≤ b.rbegin ∨ b.rend ≤ a.rbegin)) :=
  c6_thm [] [gc_op.add 30 7, gc_op.add 10 5, gc_op.remove 30]
    (by constructor <;> decide) (by decide)

/-! ### The collector: data of collect_impl (gc.cpp 85-211) -/

/-- Owning pointer slot (graph_ptr of void): its own storage address and the
cached referent address.  ref = 0 models a null strong reference (the
if (gp) test of the snapshot loop). -/
structure graph_ptr where
  addr : Nat
  ref : Nat
deriving DecidableEq, Repr, Inhabited

/-- Observing pointer slot (raw_graph_ptr of void): its own storage address
and the raw referent address (field ptr in the source). -/
structure raw_graph_ptr where
  addr : Nat
  ptr : Nat
deriving DecidableEq, Repr, Inhabited

/-- A per-trace mirror of one range with the managed / scanned flags: the
entries of the rngs array of collect_impl (gc.cpp 106). -/
structure range_mark where
  rbegin : Nat
  rend : Nat
  managed : Bool
  scanned : Bool
deriving DecidableEq, Repr, Inhabited

/-- scan_info of gc.cpp: gp is the slot storage address.  The source stores
a pointer into rngs and recovers the owning kind from the dynamic type
behind gp; the model stores the index of the target range, the referent
address that produced it, and the owning kind explicitly. -/
structure scan_info where
  gp : Nat
  ref : Nat
  isOwning : Bool
  rangeIdx : Nat
deriving DecidableEq, Repr, Inhabited

/-- The four per-trace arrays built under the joint lock (gc.cpp 96-153). -/
structure snapshot where
  rngs : List range_mark
  info : List scan_info
  keep : List Nat
  scan : List Nat
deriving DecidableEq, Repr, Inhabited

/-- The persistent state of the graph singleton (the transient arrays are
local to the model of collect_impl). -/
structure graph where
  ranges : List memory_range
  pointers : List graph_ptr
  rawPointers : List raw_graph_ptr
  collecting : Bool
deriving DecidableEq, Repr, Inhabited

/-- Overwrite the managed flag of rngs[j]. -/
def mark_managed (rngs : List range_mark) (j : Nat) (b : Bool) : List range_mark :=
  setIdx rngs j { nthD rngs j default with managed := b }

/-- Snapshot step for one owning slot (gc.cpp 108-130).  When the referent of
a non-null owning slot lies in no range, find_range_iterator yields the end
iterator, idx_r is ranges.size(), and rngs[idx_r] is an out-of-bounds access:
modelled as none (claim C9). -/
def snapshot_owning_slot (ranges : List memory_range) (gp : graph_ptr)
    (acc : snapshot) : Option snapshot :=
  if gp.ref = 0 then some acc
  else
    match find_range_iterator ranges gp.ref with
    | none => none
    | some j =>
      if (find_range ranges gp.addr).isNone
      then some ⟨mark_managed acc.rngs j true,
        acc.info ++ [⟨gp.addr, gp.ref, true, j⟩],
        acc.keep ++ [acc.info.length], acc.scan⟩
      else some ⟨mark_managed acc.rngs j true,
        acc.info ++ [⟨gp.addr, gp.ref, true, j⟩],
        acc.keep, acc.scan ++ [acc.info.length]⟩

def snapshot_owning (ranges : List memory_range) :
    List graph_ptr → snapshot → Option snapshot
  | [], acc => some acc
  | gp :: rest, acc =>
    match snapshot_owning_slot ranges gp acc with
    | none => none
    | some acc2 => snapshot_owning ranges rest acc2

/-- Snapshot step for one observing slot (gc.cpp 132-152).  An observing
slot whose referent lies in no range is ignored.  NOTE the source really
writes si.range->managed = false here, clobbering the flag owning slots set. -/
def snapshot_raw_slot (ranges : List memory_range) (rgp : raw_graph_ptr)
    (acc : snapshot) : snapshot :=
  match find_range_iterator ranges rgp.ptr with
  | none => acc
  | some j =>
    if (find_range ranges rgp.addr).isNone
    then ⟨mark_managed acc.rngs j false,
      acc.info ++ [⟨rgp.addr, rgp.ptr, false, j⟩],
      acc.keep ++ [acc.info.length], acc.scan⟩
    else ⟨mark_managed acc.rngs j false,
      acc.info ++ [⟨rgp.addr, rgp.ptr, false, j⟩],
      acc.keep, acc.scan ++ [acc.info.length]⟩

def snapshot_raw (ranges : List memory_range) :
    List raw_graph_ptr → snapshot → snapshot
  | [], acc => acc
  | rgp :: rest, acc => snapshot_raw ranges rest (snapshot_raw_slot ranges rgp acc)

/-- The initial per-trace arrays: rngs mirrors ranges with both flags false
(gc.cpp 104-106). -/
def init_snapshot (ranges : List memory_range) : snapshot :=
  ⟨ranges.map (fun r => ⟨r.rbegin, r.rend, false, false⟩), [], [], []⟩

/-- The whole snapshot phase (owning slots first, then observing slots). -/
def build_snapshot (g : graph) : Option snapshot :=
  match snapshot_owning g.ranges g.pointers (init_snapshot g.ranges) with
  | none => none
  | some acc => some (snapshot_raw g.ranges g.rawPointers acc)

/-- The mark loop of collect_impl (gc.cpp 158-184), with explicit fuel for
the number of outer iterations; claim C8 proves the budget used by
collect_impl always suffices.  The C++ swap-and-pop walk over scan moves to
keep exactly the records whose storage lies in the half-open parent range
and retains exactly the others; it is rendered as a filter split (the spec
notes that the order of scan is immaterial). -/
def mark_loop (info : List scan_info) :
    Nat → List range_mark → List Nat → List Nat → Nat →
      Option (List range_mark × List Nat × List Nat)
  | 0, _, _, _, _ => none
  | fuel + 1, rngs, keep, scan, i =>
    if i = keep.length then some (rngs, keep, scan)
    else
      let parent := nthD info (nthD keep i 0) default
      let pr := nthD rngs parent.rangeIdx default
      if pr.scanned then mark_loop info fuel rngs keep scan (i + 1)
      else
        let moved := scan.filter (fun idx =>
          decide (pr.rbegin ≤ (nthD info idx default).gp ∧
            (nthD info idx default).gp < pr.rend))
        let rest := scan.filter (fun idx =>
          !(decide (pr.rbegin ≤ (nthD info idx default).gp ∧
            (nthD info idx default).gp < pr.rend)))
        mark_loop info fuel (setIdx rngs parent.rangeIdx { pr with scanned := true })
          (keep ++ moved) rest (i + 1)

/-- An entry of the destruction batch: the index of the scan record it came
from, together with that record.  The source (gc.cpp 186-195) moves
static_cast to graph_ptr of si.gp, then ->ptr, for EVERY surviving record
whose target range is managed - including observing records, for which that
cast reads unrelated memory as a strong reference; keeping the record lets
the claims tell the two kinds apart. -/
abbrev garbage_entry := Nat × scan_info

/-- The sweep (gc.cpp 186-195): harvest each record left in scan whose
target range carries the managed flag. -/
def sweep (info : List scan_info) (rngs : List range_mark)
    (scanF : List Nat) : List garbage_entry :=
  scanF.filterMap (fun idx =>
    if (nthD rngs (nthD info idx default).rangeIdx default).managed
    then some (idx, nthD info idx default) else none)

/-- Fuel bound for the mark loop. -/
def mark_fuel (s : snapshot) : Nat := 2 * s.scan.length + s.keep.length + 1

/-- graph::collect_impl (gc.cpp 85-211).  The pair holds the post state of
the registries (whose membership collect never changes; moved-from slot
contents are outside the model) and the garbage batch; none models the
undefined behavior of claim C9.  The re-entrancy guard (gc.cpp 87-90)
returns an empty batch untouched. -/
def collect_impl (g : graph) : graph × Option (List garbage_entry) :=
  if g.collecting then (g, some [])
  else
    match build_snapshot g with
    | none => (g, none)
    | some snap =>
      match mark_loop snap.info (mark_fuel snap) snap.rngs snap.keep snap.scan 0 with
      | none => (g, none)
      | some (rngsF, _keepF, scanF) => (g, some (sweep snap.info rngsF scanF))

/-! ### Claim-side reachability (spec §3, P3/P4) -/

/-- Modelled from the spec (claim-side definition; spec §3, §4.3, P3):
transitive reachability of range indices by address containment.  A non-null
root owning slot (storage outside every range, in the inclusive sense the
spec prescribes for slot-location queries in §4.1/§9) seeds reachability at
the range its referent is attributed to; from a reachable range, an edge
leads through any registered slot whose storage lies in that range's
half-open interval to the target range of that slot. -/
inductive reachable (g : graph) : Nat → Prop where
  | root (s : graph_ptr) (j : Nat) : s ∈ g.pointers → s.ref ≠ 0 →
      (∀ r ∈ g.ranges, ¬ inClosed s.addr r) →
      find_range_iterator g.ranges s.ref = some j → reachable g j
  | step_owning (s : graph_ptr) (j k : Nat) : reachable g j → s ∈ g.pointers →
      s.ref ≠ 0 → inHalf s.addr (nthD g.ranges j default) →
      find_range_iterator g.ranges s.ref = some k → reachable g k
  | step_raw (s : raw_graph_ptr) (j k : Nat) : reachable g j → s ∈ g.rawPointers →
      inHalf s.addr (nthD g.ranges j default) →
      find_range_iterator g.ranges s.ptr = some k → reachable g k

/-- Range j is the target of a non-null owning slot that is itself a root or
stored inside a reachable range (the last reachability edge is owning). -/
def reachable_owned (g : graph) (j : Nat) : Prop :=
  ∃ s ∈ g.pointers, s.ref ≠ 0 ∧ find_range_iterator g.ranges s.ref = some j ∧
    ((∀ r ∈ g.ranges, ¬ inClosed s.addr r) ∨
      ∃ j2, reachable g j2 ∧ inHalf s.addr (nthD g.ranges j2 default))

/-! ### Mark loop lemmas -/

/-- a lies in the half-open interval of a range mark (the test of the inner
walk, gc.cpp 171). -/
abbrev inHalfM (a : Nat) (pr : range_mark) : Prop := pr.rbegin ≤ a ∧ a < pr.rend

theorem setIdx_oob {α : Type} (l : List α) (i : Nat) (a : α)
    (h : l.length ≤ i) : setIdx l i a = l := by
  induction l generalizing i with
  | nil => rfl
  | cons b t ih =>
    cases i with
    | zero => simp at h
    | succ n =>
      simp only [List.length_cons, Nat.succ_le_succ_iff] at h
      simp [setIdx, ih n h]

/-- The iteration budget used by collect_impl always lets the mark loop
finish: the measure 2|scan| + (|keep| - i) strictly decreases each
iteration. -/
theorem mark_loop_fuel (info : List scan_info) :
    ∀ (fuel : Nat) (rngs : List range_mark) (keep scan : List Nat) (i : Nat),
      i ≤ keep.length → 2 * scan.length + (keep.length - i) < fuel →
      ∃ res, mark_loop info fuel rngs keep scan i = some res := by
  intro fuel
  induction fuel with
  | zero => intro rngs keep scan i hle hf; omega
  | succ n ih =>
    intro rngs keep scan i hle hf
    simp only [mark_loop]
    by_cases hi : i = keep.length
    · rw [if_pos hi]; exact ⟨_, rfl⟩
    · rw [if_neg hi]
      by_cases hs : (nthD rngs (nthD info (nthD keep i 0) default).rangeIdx default).scanned
      · rw [if_pos hs]
        exact ih rngs keep scan (i + 1) (by omega) (by omega)
      · rw [if_neg hs]
        refine ih _ _ _ (i + 1) ?_ ?_
        · simp only [List.length_append]
          omega
        · have hsplit := filter_split_length (fun idx =>
            decide ((nthD rngs (nthD info (nthD keep i 0) default).rangeIdx default).rbegin ≤
              (nthD info idx default).gp ∧
              (nthD info idx default).gp <
                (nthD rngs (nthD info (nthD keep i 0) default).rangeIdx default).rend)) scan
          simp only [List.length_append]
          omega

/-- The mark loop never changes a range mark's interval or managed flag. -/
theorem mark_loop_geom (info : List scan_info) :
    ∀ (fuel : Nat) (rngs : List range_mark) (keep scan : List Nat) (i : Nat)
      (res : List range_mark × List Nat × List Nat),
      mark_loop info fuel rngs keep scan i = some res →
      ∀ j, (nthD res.1 j default).rbegin = (nthD rngs j default).rbegin ∧
        (nthD res.1 j default).rend = (nthD rngs j default).rend ∧
        (nthD res.1 j default).managed = (nthD rngs j default).managed := by
  intro fuel
  induction fuel with
  | zero => intro rngs keep scan i res h; simp [mark_loop] at h
  | succ n ih =>
    intro rngs keep scan i res h j
    simp only [mark_loop] at h
    by_cases hi : i = keep.length
    · rw [if_pos hi] at h
      injection h with h2
      subst h2
      exact ⟨rfl, rfl, rfl⟩
    · rw [if_neg hi] at h
      by_cases hs : (nthD rngs (nthD info (nthD keep i 0) default).rangeIdx default).scanned
      · rw [if_pos hs] at h
        exact ih _ _ _ _ _ h j
      · rw [if_neg hs] at h
        have step := ih _ _ _ _ _ h j
        set j0 := (nthD info (nthD keep i 0) default).rangeIdx with hj0
        by_cases hb : j0 < rngs.length
        · by_cases hjj : j = j0
          · subst hjj
            rw [nthD_setIdx_self rngs j0 _ default hb] at step
            exact step
          · rw [nthD_setIdx_ne rngs j0 j _ default hjj] at step
            exact step
        · rw [setIdx_oob rngs j0 _ (by omega)] at step
          exact step

/-- Scanned flags only ever turn on. -/
theorem mark_loop_scanned_mono (info : List scan_info) :
    ∀ (fuel : Nat) (rngs : List range_mark) (keep scan : List Nat) (i : Nat)
      (res : List range_mark × List Nat × List Nat),
      mark_loop info fuel rngs keep scan i = some res →
      ∀ j, (nthD rngs j default).scanned = true →
        (nthD res.1 j default).scanned = true := by
  intro fuel
  induction fuel with
  | zero => intro rngs keep scan i res h; simp [mark_loop] at h
  | succ n ih =>
    intro rngs keep scan i res h j hj
    simp only [mark_loop] at h
    by_cases hi : i = keep.length
    · rw [if_pos hi] at h
      injection h with h2
      subst h2
      exact hj
    · rw [if_neg hi] at h
      by_cases hs : (nthD rngs (nthD info (nthD keep i 0) default).rangeIdx default).scanned
      · rw [if_pos hs] at h
        exact ih _ _ _ _ _ h j hj
      · rw [if_neg hs] at h
        refine ih _ _ _ _ _ h j ?_
        set j0 := (nthD info (nthD keep i 0) default).rangeIdx with hj0
        by_cases hb : j0 < rngs.length
        · by_cases hjj : j = j0
          · subst hjj
            rw [nthD_setIdx_self rngs j0 _ default hb]
          · rw [nthD_setIdx_ne rngs j0 j _ default hjj]
            exact hj
        · rw [setIdx_oob rngs j0 _ (by omega)]
          exact hj

/-- The keep list only grows. -/
theorem mark_loop_keep_mono (info : List scan_info) :
    ∀ (fuel : Nat) (rngs : List range_mark) (keep scan : List Nat) (i : Nat)
      (res : List range_mark × List Nat × List Nat),
      mark_loop info fuel rngs keep scan i = some res →
      ∀ x ∈ keep, x ∈ res.2.1 := by
  intro fuel
  induction fuel with
  | zero => intro rngs keep scan i res h; simp [mark_loop] at h
  | succ n ih =>
    intro rngs keep scan i res h x hx
    simp only [mark_loop] at h
    by_cases hi : i = keep.length
    · rw [if_pos hi] at h
      injection h with h2
      subst h2
      exact hx
    · rw [if_neg hi] at h
      by_cases hs : (nthD rngs (nthD info (nthD keep i 0) default).rangeIdx default).scanned
      · rw [if_pos hs] at h
        exact ih _ _ _ _ _ h x hx
      · rw [if_neg hs] at h
        exact ih _ _ _ _ _ h x (List.mem_append_left _ hx)

theorem nthD_setIdx_cases {α : Type} (l : List α) (i j : Nat) (d a : α) :
    nthD (setIdx l i a) j d = nthD l j d ∨
      (j = i ∧ i < l.length ∧ nthD (setIdx l i a) j d = a) := by
  by_cases hj : j = i
  · by_cases hb : i < l.length
    · subst hj
      exact Or.inr ⟨rfl, hb, nthD_setIdx_self l j a d hb⟩
    · rw [setIdx_oob l i a (by omega)]
      exact Or.inl rfl
  · rw [nthD_setIdx_ne l i j a d hj]
    exact Or.inl rfl

/-- The trace invariant I3 of the spec plus the folded property of scanned
ranges: every record is in keep or scan, scan is disjoint from keep, and the
interior of every scanned range has been folded into keep. -/
def mark_inv (info : List scan_info) (rngs : List range_mark)
    (keep scan : List Nat) : Prop :=
  (∀ x, x < info.length → x ∈ keep ∨ x ∈ scan) ∧
  (∀ x ∈ scan, x ∉ keep) ∧
  (∀ j, j < rngs.length → (nthD rngs j default).scanned = true →
    ∀ x, x < info.length →
      inHalfM (nthD info x default).gp (nthD rngs j default) → x ∈ keep)

theorem mark_loop_inv (info : List scan_info) :
    ∀ (fuel : Nat) (rngs : List range_mark) (keep scan : List Nat) (i : Nat)
      (res : List range_mark × List Nat × List Nat),
      mark_loop info fuel rngs keep scan i = some res →
      mark_inv info rngs keep scan →
      mark_inv info res.1 res.2.1 res.2.2 := by
  intro fuel
  induction fuel with
  | zero => intro rngs keep scan i res h; simp [mark_loop] at h
  | succ n ih =>
    intro rngs keep scan i res h hinv
    simp only [mark_loop] at h
    by_cases hi : i = keep.length
    · rw [if_pos hi] at h
      injection h with h2
      subst h2
      exact hinv
    · rw [if_neg hi] at h
      by_cases hs : (nthD rngs (nthD info (nthD keep i 0) default).rangeIdx default).scanned
      · rw [if_pos hs] at h
        exact ih _ _ _ _ _ h hinv
      · rw [if_neg hs] at h
        refine ih _ _ _ _ _ h ?_
        obtain ⟨hpart, hdis, hfold⟩ := hinv
        set j0 := (nthD info (nthD keep i 0) default).rangeIdx with hj0
        set pr := nthD rngs j0 default with hpr
        set prc := (fun idx =>
          decide (pr.rbegin ≤ (nthD info idx default).gp ∧
            (nthD info idx default).gp < pr.rend)) with hprc
        refine ⟨?_, ?_, ?_⟩
        · intro x hx
          rcases hpart x hx with h1 | h2
          · exact Or.inl (List.mem_append_left _ h1)
          · rcases mem_filter_split prc scan x h2 with h3 | h4
            · exact Or.inl (List.mem_append_right _ h3)
            · exact Or.inr h4
        · intro x hx
          rcases List.mem_filter.mp hx with ⟨hxs, hxp⟩
          intro hc
          rcases List.mem_append.mp hc with h1 | h2
          · exact hdis x hxs h1
          · rcases List.mem_filter.mp h2 with ⟨-, hxp2⟩
            have hh : pr.rbegin ≤ (nthD info x default).gp ∧
                (nthD info x default).gp < pr.rend := of_decide_eq_true hxp2
            have hne : (!decide (pr.rbegin ≤ (nthD info x default).gp ∧
                (nthD info x default).gp < pr.rend)) = true := hxp
            rw [decide_eq_true hh] at hne
            simp at hne
        · intro j hj hsc x hx hhalf
          have hjlen : j < rngs.length := by
            have := length_setIdx rngs j0 { pr with scanned := true }
            omega
          rcases nthD_setIdx_cases rngs j0 j default { pr with scanned := true } with
            hcase | ⟨hjj, hblt, hval⟩
          · rw [hcase] at hsc hhalf
            exact List.mem_append_left _ (hfold j hjlen hsc x hx hhalf)
          · rw [hval] at hhalf
            have hhalf' : inHalfM (nthD info x default).gp pr := hhalf
            rcases hpart x hx with h1 | h2
            · exact List.mem_append_left _ h1
            · refine List.mem_append_right _ ?_
              refine List.mem_filter.mpr ⟨h2, ?_⟩
              rw [hprc]
              exact decide_eq_true hhalf'

/-- At the end of the mark loop the target range of every kept record is
scanned (the loop has processed every keep entry). -/
theorem mark_loop_keep_scanned (info : List scan_info) :
    ∀ (fuel : Nat) (rngs : List range_mark) (keep scan : List Nat) (i : Nat)
      (res : List range_mark × List Nat × List Nat),
      mark_loop info fuel rngs keep scan i = some res →
      i ≤ keep.length →
      (∀ x ∈ keep, (nthD info x default).rangeIdx < rngs.length) →
      (∀ x ∈ scan, (nthD info x default).rangeIdx < rngs.length) →
      (∀ k, k < i →
        (nthD rngs (nthD info (nthD keep k 0) default).rangeIdx default).scanned = true) →
      ∀ x ∈ res.2.1,
        (nthD res.1 (nthD info x default).rangeIdx default).scanned = true := by
  intro fuel
  induction fuel with
  | zero => intro rngs keep scan i res h; simp [mark_loop] at h
  | succ n ih =>
    intro rngs keep scan i res h hle hbk hbs hpre
    simp only [mark_loop] at h
    by_cases hi : i = keep.length
    · rw [if_pos hi] at h
      injection h with h2
      subst h2
      intro x hx
      obtain ⟨k, hk, hkv⟩ := (mem_iff_nthD keep x 0).mp hx
      rw [← hkv]
      exact hpre k (by omega)
    · rw [if_neg hi] at h
      by_cases hs : (nthD rngs (nthD info (nthD keep i 0) default).rangeIdx default).scanned
      · rw [if_pos hs] at h
        refine ih _ _ _ _ _ h (by omega) hbk hbs ?_
        intro k hk
        rcases Nat.lt_or_ge k i with h1 | h1
        · exact hpre k h1
        · have : k = i := by omega
          subst this
          exact hs
      · rw [if_neg hs] at h
        set j0 := (nthD info (nthD keep i 0) default).rangeIdx with hj0
        set pr := nthD rngs j0 default with hpr
        have hj0lt : j0 < rngs.length :=
          hbk _ (nthD_mem keep i 0 (by omega))
        have hlen' := length_setIdx rngs j0 { pr with scanned := true }
        refine ih _ _ _ _ _ h ?_ ?_ ?_ ?_
        · simp only [List.length_append]; omega
        · intro x hx
          rcases List.mem_append.mp hx with h1 | h2
          · rw [hlen']; exact hbk x h1
          · rw [hlen']; exact hbs x (List.mem_filter.mp h2).1
        · intro x hx
          rw [hlen']
          exact hbs x (List.mem_filter.mp hx).1
        · intro k hk
          have hklt : k < keep.length := by omega
          rw [nthD_append_lt keep _ k 0 hklt]
          rcases Nat.lt_or_ge k i with h1 | h1
          · have hold := hpre k h1
            rcases nthD_setIdx_cases rngs j0
              ((nthD info (nthD keep k 0) default).rangeIdx) default
              { pr with scanned := true } with hcase | ⟨hjj, hblt, hval⟩
            · rw [hcase]; exact hold
            · rw [hval]
          · have : k = i := by omega
            subst this
            rw [← hj0, nthD_setIdx_self rngs j0 _ default hj0lt]

/-- A record is kept only if it was originally kept or its storage lies in
the half-open interval of some range. -/
theorem mark_loop_keep_origin (info : List scan_info) :
    ∀ (fuel : Nat) (rngs : List range_mark) (keep scan : List Nat) (i : Nat)
      (res : List range_mark × List Nat × List Nat),
      mark_loop info fuel rngs keep scan i = some res →
      ∀ x ∈ res.2.1, x ∈ keep ∨
        ∃ j, j < rngs.length ∧
          inHalfM (nthD info x default).gp (nthD rngs j default) := by
  intro fuel
  induction fuel with
  | zero => intro rngs keep scan i res h; simp [mark_loop] at h
  | succ n ih =>
    intro rngs keep scan i res h x hx
    simp only [mark_loop] at h
    by_cases hi : i = keep.length
    · rw [if_pos hi] at h
      injection h with h2
      subst h2
      exact Or.inl hx
    · rw [if_neg hi] at h
      by_cases hs : (nthD rngs (nthD info (nthD keep i 0) default).rangeIdx default).scanned
      · rw [if_pos hs] at h
        exact ih _ _ _ _ _ h x hx
      · rw [if_neg hs] at h
        set j0 := (nthD info (nthD keep i 0) default).rangeIdx with hj0
        set pr := nthD rngs j0 default with hpr
        rcases ih _ _ _ _ _ h x hx with h1 | ⟨j, hjlt, hjh⟩
        · rcases List.mem_append.mp h1 with h2 | h3
          · exact Or.inl h2
          · rcases List.mem_filter.mp h3 with ⟨-, hp⟩
            have hhalf : inHalfM (nthD info x default).gp pr := of_decide_eq_true hp
            have hj0lt : j0 < rngs.length := by
              by_contra hc
              rw [hpr, nthD_oob rngs j0 default (by omega)] at hhalf
              have h2 := hhalf.2
              have hde : (default : range_mark).rend = 0 := rfl
              omega
            exact Or.inr ⟨j0, hj0lt, hhalf⟩
        · have hlen' := length_setIdx rngs j0 { pr with scanned := true }
          rcases nthD_setIdx_cases rngs j0 j default { pr with scanned := true } with
            hcase | ⟨hjj, hblt, hval⟩
          · rw [hcase] at hjh
            exact Or.inr ⟨j, by omega, hjh⟩
          · rw [hval] at hjh
            exact Or.inr ⟨j0, hblt, hjh⟩

/-- A record whose storage lies in no range's half-open interval is never
moved out of scan by the mark loop. -/
theorem mark_loop_scan_out (info : List scan_info) :
    ∀ (fuel : Nat) (rngs : List range_mark) (keep scan : List Nat) (i : Nat)
      (res : List range_mark × List Nat × List Nat),
      mark_loop info fuel rngs keep scan i = some res →
      ∀ x ∈ scan,
        (∀ j, ¬ inHalfM (nthD info x default).gp (nthD rngs j default)) →
        x ∈ res.2.2 := by
  intro fuel
  induction fuel with
  | zero => intro rngs keep scan i res h; simp [mark_loop] at h
  | succ n ih =>
    intro rngs keep scan i res h x hx hnone
    simp only [mark_loop] at h
    by_cases hi : i = keep.length
    · rw [if_pos hi] at h
      injection h with h2
      subst h2
      exact hx
    · rw [if_neg hi] at h
      by_cases hs : (nthD rngs (nthD info (nthD keep i 0) default).rangeIdx default).scanned
      · rw [if_pos hs] at h
        exact ih _ _ _ _ _ h x hx hnone
      · rw [if_neg hs] at h
        set j0 := (nthD info (nthD keep i 0) default).rangeIdx with hj0
        set pr := nthD rngs j0 default with hpr
        have hnot : ¬ (pr.rbegin ≤ (nthD info x default).gp ∧
            (nthD info x default).gp < pr.rend) := hnone j0
        refine ih _ _ _ _ _ h x ?_ ?_
        · exact List.mem_filter.mpr ⟨hx, by simp [hnot]⟩
        · intro j
          rcases nthD_setIdx_cases rngs j0 j default { pr with scanned := true } with
            hcase | ⟨hjj, hblt, hval⟩
          · rw [hcase]
            exact hnone j
          · rw [hval]
            exact fun hc => hnone j0 hc

/-! ### Snapshot lemmas -/

theorem nthD_append_self {α : Type} (l : List α) (a d : α) :
    nthD (l ++ [a]) l.length d = a := by
  rw [nthD_append_ge l [a] l.length d (le_refl _)]
  simp [nthD]

theorem find_range_none_iff (l : List memory_range) (p : Nat) :
    find_range l p = none ↔ find_range_iterator l p = none := by
  unfold find_range
  cases find_range_iterator l p <;> simp

/-- Case analysis of the owning-slot snapshot step. -/
theorem snapshot_owning_slot_cases (ranges : List memory_range) (s : graph_ptr)
    (acc acc2 : snapshot) (h : snapshot_owning_slot ranges s acc = some acc2) :
    (s.ref = 0 ∧ acc2 = acc) ∨
    (∃ j, s.ref ≠ 0 ∧ find_range_iterator ranges s.ref = some j ∧
      acc2.rngs = mark_managed acc.rngs j true ∧
      acc2.info = acc.info ++ [⟨s.addr, s.ref, true, j⟩] ∧
      ((find_range_iterator ranges s.addr = none ∧
          acc2.keep = acc.keep ++ [acc.info.length] ∧ acc2.scan = acc.scan) ∨
        (find_range_iterator ranges s.addr ≠ none ∧
          acc2.keep = acc.keep ∧ acc2.scan = acc.scan ++ [acc.info.length]))) := by
  unfold snapshot_owning_slot at h
  split at h
  · injection h with h2
    exact Or.inl ⟨by assumption, h2.symm⟩
  · rename_i href
    split at h
    · simp at h
    · rename_i j hfind
      split at h
      · rename_i hroot
        injection h with h2
        subst h2
        refine Or.inr ⟨j, href, hfind, rfl, rfl, Or.inl ⟨?_, rfl, rfl⟩⟩
        rw [← find_range_none_iff]
        exact Option.isNone_iff_eq_none.mp hroot
      · rename_i hroot
        injection h with h2
        subst h2
        refine Or.inr ⟨j, href, hfind, rfl, rfl, Or.inr ⟨?_, rfl, rfl⟩⟩
        intro hc
        exact hroot (Option.isNone_iff_eq_none.mpr
          ((find_range_none_iff ranges s.addr).mpr hc))

/-- Case analysis of the observing-slot snapshot step. -/
theorem snapshot_raw_slot_cases (ranges : List memory_range) (s : raw_graph_ptr)
    (acc : snapshot) :
    (find_range_iterator ranges s.ptr = none ∧ snapshot_raw_slot ranges s acc = acc) ∨
    (∃ j, find_range_iterator ranges s.ptr = some j ∧
      (snapshot_raw_slot ranges s acc).rngs = mark_managed acc.rngs j false ∧
      (snapshot_raw_slot ranges s acc).info = acc.info ++ [⟨s.addr, s.ptr, false, j⟩] ∧
      ((find_range_iterator ranges s.addr = none ∧
          (snapshot_raw_slot ranges s acc).keep = acc.keep ++ [acc.info.length] ∧
          (snapshot_raw_slot ranges s acc).scan = acc.scan) ∨
        (find_range_iterator ranges s.addr ≠ none ∧
          (snapshot_raw_slot ranges s acc).keep = acc.keep ∧
          (snapshot_raw_slot ranges s acc).scan = acc.scan ++ [acc.info.length]))) := by
  cases hfind : find_range_iterator ranges s.ptr with
  | none =>
    refine Or.inl ⟨rfl, ?_⟩
    unfold snapshot_raw_slot
    rw [hfind]
  | some j =>
    by_cases hroot : (find_range ranges s.addr).isNone
    · have hval : snapshot_raw_slot ranges s acc =
        ⟨mark_managed acc.rngs j false,
          acc.info ++ [⟨s.addr, s.ptr, false, j⟩],
          acc.keep ++ [acc.info.length], acc.scan⟩ := by
        unfold snapshot_raw_slot
        rw [hfind]
        exact if_pos hroot
      refine Or.inr ⟨j, rfl, by rw [hval], by rw [hval],
        Or.inl ⟨?_, by rw [hval], by rw [hval]⟩⟩
      exact (find_range_none_iff ranges s.addr).mp (Option.isNone_iff_eq_none.mp hroot)
    · have hval : snapshot_raw_slot ranges s acc =
        ⟨mark_managed acc.rngs j false,
          acc.info ++ [⟨s.addr, s.ptr, false, j⟩],
          acc.keep, acc.scan ++ [acc.info.length]⟩ := by
        unfold snapshot_raw_slot
        rw [hfind]
        exact if_neg hroot
      refine Or.inr ⟨j, rfl, by rw [hval], by rw [hval],
        Or.inr ⟨?_, by rw [hval], by rw [hval]⟩⟩
      intro hc
      exact hroot (Option.isNone_iff_eq_none.mpr
        ((find_range_none_iff ranges s.addr).mpr hc))

theorem snapshot_owning_info_mono (ranges : List memory_range) :
    ∀ (slots : List graph_ptr) (acc res : snapshot),
      snapshot_owning ranges slots acc = some res →
      acc.info.length ≤ res.info.length ∧
        (∀ x, x < acc.info.length →
          nthD res.info x default = nthD acc.info x default) := by
  intro slots
  induction slots with
  | nil =>
    intro acc res h
    simp only [snapshot_owning] at h
    injection h with h2
    subst h2
    exact ⟨le_refl _, fun x hx => rfl⟩
  | cons gp rest ih =>
    intro acc res h
    simp only [snapshot_owning] at h
    cases hstep : snapshot_owning_slot ranges gp acc with
    | none => rw [hstep] at h; simp at h
    | some acc2 =>
      rw [hstep] at h
      have h' : snapshot_owning ranges rest acc2 = some res := h
      obtain ⟨hle, hpres⟩ := ih acc2 res h'
      rcases snapshot_owning_slot_cases ranges gp acc acc2 hstep with
        ⟨-, rfl⟩ | ⟨j, -, -, -, hinfo, -⟩
      · exact ⟨hle, hpres⟩
      · refine ⟨by rw [hinfo] at hle; simp at hle; omega, ?_⟩
        intro x hx
        rw [hpres x (by rw [hinfo]; simp; omega), hinfo,
          nthD_append_lt acc.info _ x default hx]

theorem snapshot_raw_info_mono (ranges : List memory_range) :
    ∀ (slots : List raw_graph_ptr) (acc : snapshot),
      acc.info.length ≤ (snapshot_raw ranges slots acc).info.length ∧
        (∀ x, x < acc.info.length →
          nthD (snapshot_raw ranges slots acc).info x default =
            nthD acc.info x default) := by
  intro slots
  induction slots with
  | nil => exact fun acc => ⟨le_refl _, fun x hx => rfl⟩
  | cons rgp rest ih =>
    intro acc
    have hrec := ih (snapshot_raw_slot ranges rgp acc)
    have hstep : snapshot_raw ranges (rgp :: rest) acc =
        snapshot_raw ranges rest (snapshot_raw_slot ranges rgp acc) := rfl
    rw [hstep]
    rcases snapshot_raw_slot_cases ranges rgp acc with
      ⟨-, hsr⟩ | ⟨j, -, -, hinfo, -⟩
    · rw [hsr] at hrec ⊢
      exact hrec
    · obtain ⟨hle, hpres⟩ := hrec
      refine ⟨by rw [hinfo] at hle; simp at hle; omega, ?_⟩
      intro x hx
      rw [hpres x (by rw [hinfo]; simp; omega), hinfo,
        nthD_append_lt acc.info _ x default hx]

theorem snapshot_owning_src (ranges : List memory_range) :
    ∀ (slots : List graph_ptr) (acc res : snapshot),
      snapshot_owning ranges slots acc = some res →
      ∀ x, x < res.info.length →
        x < acc.info.length ∨
        ∃ s ∈ slots, s.ref ≠ 0 ∧ ∃ j, find_range_iterator ranges s.ref = some j ∧
          nthD res.info x default = ⟨s.addr, s.ref, true, j⟩ := by
  intro slots
  induction slots with
  | nil =>
    intro acc res h x hx
    simp only [snapshot_owning] at h
    injection h with h2
    subst h2
    exact Or.inl hx
  | cons gp rest ih =>
    intro acc res h x hx
    simp only [snapshot_owning] at h
    cases hstep : snapshot_owning_slot ranges gp acc with
    | none => rw [hstep] at h; simp at h
    | some acc2 =>
      rw [hstep] at h
      have h' : snapshot_owning ranges rest acc2 = some res := h
      rcases ih acc2 res h' x hx with h1 | ⟨s, hs, hsr, j, hj, hv⟩
      · rcases snapshot_owning_slot_cases ranges gp acc acc2 hstep with
          ⟨-, rfl⟩ | ⟨j, hr0, hjf, -, hinfo, -⟩
        · exact Or.inl h1
        · rw [hinfo] at h1
          simp only [List.length_append, List.length_cons, List.length_nil] at h1
          rcases Nat.lt_or_ge x acc.info.length with h2 | h2
          · exact Or.inl h2
          · have hxv : x = acc.info.length := by omega
            refine Or.inr ⟨gp, List.mem_cons_self _ _, hr0, j, hjf, ?_⟩
            rw [(snapshot_owning_info_mono ranges rest acc2 res h').2 x
              (by rw [hinfo]; simp; omega), hinfo, hxv, nthD_append_self]
      · exact Or.inr ⟨s, List.mem_cons_of_mem _ hs, hsr, j, hj, hv⟩

theorem snapshot_raw_src (ranges : List memory_range) :
    ∀ (slots : List raw_graph_ptr) (acc : snapshot),
      ∀ x, x < (snapshot_raw ranges slots acc).info.length →
        x < acc.info.length ∨
        ∃ s ∈ slots, ∃ j, find_range_iterator ranges s.ptr = some j ∧
          nthD (snapshot_raw ranges slots acc).info x default =
            ⟨s.addr, s.ptr, false, j⟩ := by
  intro slots
  induction slots with
  | nil => exact fun acc x hx => Or.inl hx
  | cons rgp rest ih =>
    intro acc x hx
    have hstep : snapshot_raw ranges (rgp :: rest) acc =
        snapshot_raw ranges rest (snapshot_raw_slot ranges rgp acc) := rfl
    rw [hstep] at hx ⊢
    rcases ih (snapshot_raw_slot ranges rgp acc) x hx with h1 | ⟨s, hs, j, hj, hv⟩
    · rcases snapshot_raw_slot_cases ranges rgp acc with
        ⟨-, hsr⟩ | ⟨j, hjf, -, hinfo, -⟩
      · rw [hsr] at h1
        exact Or.inl h1
      · rw [hinfo] at h1
        simp only [List.length_append, List.length_cons, List.length_nil] at h1
        rcases Nat.lt_or_ge x acc.info.length with h2 | h2
        · exact Or.inl h2
        · have hxv : x = acc.info.length := by omega
          refine Or.inr ⟨rgp, List.mem_cons_self _ _, j, hjf, ?_⟩
          rw [(snapshot_raw_info_mono ranges rest (snapshot_raw_slot ranges rgp acc)).2 x
            (by rw [hinfo]; simp; omega), hinfo, hxv, nthD_append_self]
    · exact Or.inr ⟨s, List.mem_cons_of_mem _ hs, j, hj, hv⟩

theorem snapshot_owning_slot_rec (ranges : List memory_range) :
    ∀ (slots : List graph_ptr) (acc res : snapshot),
      snapshot_owning ranges slots acc = some res →
      ∀ s ∈ slots, s.ref ≠ 0 →
        ∃ x, x < res.info.length ∧ ∃ j, find_range_iterator ranges s.ref = some j ∧
          nthD res.info x default = ⟨s.addr, s.ref, true, j⟩ := by
  intro slots
  induction slots with
  | nil => intro acc res h s hs; simp at hs
  | cons gp rest ih =>
    intro acc res h s hs hr0
    simp only [snapshot_owning] at h
    cases hstep : snapshot_owning_slot ranges gp acc with
    | none => rw [hstep] at h; simp at h
    | some acc2 =>
      rw [hstep] at h
      have h' : snapshot_owning ranges rest acc2 = some res := h
      rcases List.mem_cons.mp hs with h1 | h2
      · subst h1
        rcases snapshot_owning_slot_cases ranges s acc acc2 hstep with
          ⟨hz, -⟩ | ⟨j, -, hjf, -, hinfo, -⟩
        · exact absurd hz hr0
        · refine ⟨acc.info.length, ?_, j, hjf, ?_⟩
          · have := (snapshot_owning_info_mono ranges rest acc2 res h').1
            rw [hinfo] at this
            simp at this
            omega
          · rw [(snapshot_owning_info_mono ranges rest acc2 res h').2 acc.info.length
              (by rw [hinfo]; simp), hinfo, nthD_append_self]
      · exact ih acc2 res h' s h2 hr0

theorem snapshot_raw_slot_rec (ranges : List memory_range) :
    ∀ (slots : List raw_graph_ptr) (acc : snapshot),
      ∀ s ∈ slots, ∀ j, find_range_iterator ranges s.ptr = some j →
        ∃ x, x < (snapshot_raw ranges slots acc).info.length ∧
          nthD (snapshot_raw ranges slots acc).info x default =
            ⟨s.addr, s.ptr, false, j⟩ := by
  intro slots
  induction slots with
  | nil => intro acc s hs; simp at hs
  | cons rgp rest ih =>
    intro acc s hs j hj
    have hstep : snapshot_raw ranges (rgp :: rest) acc =
        snapshot_raw ranges rest (snapshot_raw_slot ranges rgp acc) := rfl
    rw [hstep]
    rcases List.mem_cons.mp hs with h1 | h2
    · subst h1
      rcases snapshot_raw_slot_cases ranges s acc with
        ⟨hnone, -⟩ | ⟨j2, hjf, -, hinfo, -⟩
      · rw [hj] at hnone; simp at hnone
      · have hj2 : j2 = j := by
          rw [hj] at hjf
          injection hjf with hh
          exact hh.symm
        subst hj2
        refine ⟨acc.info.length, ?_, ?_⟩
        · have := (snapshot_raw_info_mono ranges rest (snapshot_raw_slot ranges s acc)).1
          rw [hinfo] at this
          simp at this
          omega
        · rw [(snapshot_raw_info_mono ranges rest (snapshot_raw_slot ranges s acc)).2
            acc.info.length (by rw [hinfo]; simp), hinfo, nthD_append_self]
    · exact ih (snapshot_raw_slot ranges rgp acc) s h2 j hj

theorem snapshot_owning_total (ranges : List memory_range) :
    ∀ (slots : List graph_ptr) (acc : snapshot),
      (∀ s ∈ slots, s.ref ≠ 0 → find_range_iterator ranges s.ref ≠ none) →
      ∃ res, snapshot_owning ranges slots acc = some res := by
  intro slots
  induction slots with
  | nil => exact fun acc _ => ⟨acc, rfl⟩
  | cons gp rest ih =>
    intro acc hc
    have hstep : ∃ acc2, snapshot_owning_slot ranges gp acc = some acc2 := by
      cases hout : snapshot_owning_slot ranges gp acc with
      | some a => exact ⟨a, rfl⟩
      | none =>
        unfold snapshot_owning_slot at hout
        split at hout
        · simp at hout
        · rename_i hz
          split at hout
          · rename_i hfnone
            exact absurd hfnone (hc gp (List.mem_cons_self _ _) hz)
          · split at hout <;> simp at hout
    obtain ⟨acc2, hacc2⟩ := hstep
    obtain ⟨res, hres⟩ := ih acc2 (fun s hs => hc s (List.mem_cons_of_mem _ hs))
    refine ⟨res, ?_⟩
    simp only [snapshot_owning]
    rw [hacc2]
    exact hres

theorem mark_managed_geom (rngs : List range_mark) (j : Nat) (b : Bool) :
    (mark_managed rngs j b).length = rngs.length ∧
    ∀ k, (nthD (mark_managed rngs j b) k default).rbegin = (nthD rngs k default).rbegin ∧
      (nthD (mark_managed rngs j b) k default).rend = (nthD rngs k default).rend ∧
      (nthD (mark_managed rngs j b) k default).scanned = (nthD rngs k default).scanned := by
  unfold mark_managed
  refine ⟨length_setIdx _ _ _, ?_⟩
  intro k
  rcases nthD_setIdx_cases rngs j k default
    { nthD rngs j default with managed := b } with hc | ⟨hk, hb, hv⟩
  · rw [hc]
    exact ⟨rfl, rfl, rfl⟩
  · rw [hv, hk]
    exact ⟨rfl, rfl, rfl⟩

theorem mark_managed_flag (rngs : List range_mark) (j : Nat) (b : Bool) (k : Nat) :
    (nthD (mark_managed rngs j b) k default).managed = (nthD rngs k default).managed ∨
      (k = j ∧ (nthD (mark_managed rngs j b) k default).managed = b) := by
  unfold mark_managed
  rcases nthD_setIdx_cases rngs j k default
    { nthD rngs j default with managed := b } with hc | ⟨hk, hb, hv⟩
  · rw [hc]
    exact Or.inl rfl
  · rw [hv]
    exact Or.inr ⟨hk, rfl⟩

/-- Partition and root-classification invariant of the snapshot arrays:
every record index is in keep or scan; keep holds exactly the records whose
storage is found in no range, scan those found in some range. -/
def snap_part (ranges : List memory_range) (acc : snapshot) : Prop :=
  (∀ x, x < acc.info.length → x ∈ acc.keep ∨ x ∈ acc.scan) ∧
  (∀ x ∈ acc.keep, x < acc.info.length ∧
    find_range_iterator ranges (nthD acc.info x default).gp = none) ∧
  (∀ x ∈ acc.scan, x < acc.info.length ∧
    find_range_iterator ranges (nthD acc.info x default).gp ≠ none)

/-- The rngs array mirrors ranges, with all scanned flags off. -/
def snap_rngs (ranges : List memory_range) (acc : snapshot) : Prop :=
  acc.rngs.length = ranges.length ∧
  ∀ j, (nthD acc.rngs j default).rbegin = (nthD ranges j default).rbegin ∧
    (nthD acc.rngs j default).rend = (nthD ranges j default).rend ∧
    (nthD acc.rngs j default).scanned = false

/-- A managed range is the target of some owning record. -/
def snap_mng (acc : snapshot) : Prop :=
  ∀ j, (nthD acc.rngs j default).managed = true →
    ∃ x, x < acc.info.length ∧ (nthD acc.info x default).isOwning = true ∧
      (nthD acc.info x default).rangeIdx = j

theorem snapshot_owning_slot_props (ranges : List memory_range) (s : graph_ptr)
    (acc acc2 : snapshot) (h : snapshot_owning_slot ranges s acc = some acc2) :
    (snap_part ranges acc → snap_part ranges acc2) ∧
    (snap_rngs ranges acc → snap_rngs ranges acc2) ∧
    (snap_mng acc → snap_mng acc2) := by
  rcases snapshot_owning_slot_cases ranges s acc acc2 h with
    ⟨-, rfl⟩ | ⟨j, -, hjf, hrngs, hinfo, hks⟩
  · exact ⟨id, id, id⟩
  · have hlen : acc2.info.length = acc.info.length + 1 := by rw [hinfo]; simp
    have hval : ∀ x, x < acc.info.length →
        nthD acc2.info x default = nthD acc.info x default := by
      intro x hx
      rw [hinfo]
      exact nthD_append_lt acc.info _ x default hx
    have hnew : nthD acc2.info acc.info.length default = ⟨s.addr, s.ref, true, j⟩ := by
      rw [hinfo]
      exact nthD_append_self acc.info _ default
    refine ⟨?_, ?_, ?_⟩
    · rintro ⟨hp, hk, hs⟩
      rcases hks with ⟨hroot, hkeq, hseq⟩ | ⟨hroot, hkeq, hseq⟩
      · refine ⟨?_, ?_, ?_⟩
        · intro x hx
          rw [hlen] at hx
          rcases Nat.lt_or_ge x acc.info.length with h1 | h1
          · rcases hp x h1 with h2 | h2
            · exact Or.inl (by rw [hkeq]; exact List.mem_append_left _ h2)
            · exact Or.inr (by rw [hseq]; exact h2)
          · have hxv : x = acc.info.length := by omega
            subst hxv
            exact Or.inl (by rw [hkeq]; exact List.mem_append_right _ (by simp))
        · intro x hx
          rw [hkeq] at hx
          rcases List.mem_append.mp hx with h1 | h2
          · obtain ⟨hb, hf⟩ := hk x h1
            exact ⟨by omega, by rw [hval x hb]; exact hf⟩
          · simp at h2
            subst h2
            refine ⟨by omega, ?_⟩
            rw [hnew]
            exact hroot
        · intro x hx
          rw [hseq] at hx
          obtain ⟨hb, hf⟩ := hs x hx
          exact ⟨by omega, by rw [hval x hb]; exact hf⟩
      · refine ⟨?_, ?_, ?_⟩
        · intro x hx
          rw [hlen] at hx
          rcases Nat.lt_or_ge x acc.info.length with h1 | h1
          · rcases hp x h1 with h2 | h2
            · exact Or.inl (by rw [hkeq]; exact h2)
            · exact Or.inr (by rw [hseq]; exact List.mem_append_left _ h2)
          · have hxv : x = acc.info.length := by omega
            subst hxv
            exact Or.inr (by rw [hseq]; exact List.mem_append_right _ (by simp))
        · intro x hx
          rw [hkeq] at hx
          obtain ⟨hb, hf⟩ := hk x hx
          exact ⟨by omega, by rw [hval x hb]; exact hf⟩
        · intro x hx
          rw [hseq] at hx
          rcases List.mem_append.mp hx with h1 | h2
          · obtain ⟨hb, hf⟩ := hs x h1
            exact ⟨by omega, by rw [hval x hb]; exact hf⟩
          · simp at h2
            subst h2
            refine ⟨by omega, ?_⟩
            rw [hnew]
            exact hroot
    · rintro ⟨hl, hg⟩
      unfold snap_rngs
      rw [hrngs]
      refine ⟨by rw [(mark_managed_geom acc.rngs j true).1]; exact hl, ?_⟩
      intro k
      obtain ⟨h1, h2, h3⟩ := (mark_managed_geom acc.rngs j true).2 k
      obtain ⟨h4, h5, h6⟩ := hg k
      exact ⟨by rw [h1, h4], by rw [h2, h5], by rw [h3, h6]⟩
    · intro hm j2 hj2
      rw [hrngs] at hj2
      rcases mark_managed_flag acc.rngs j true j2 with h1 | ⟨h2, h3⟩
      · rw [h1] at hj2
        obtain ⟨x, hx, ho, hr⟩ := hm j2 hj2
        exact ⟨x, by omega, by rw [hval x hx]; exact ho, by rw [hval x hx]; exact hr⟩
      · subst h2
        refine ⟨acc.info.length, by omega, ?_, ?_⟩ <;> rw [hnew]

theorem snapshot_raw_slot_props (ranges : List memory_range) (s : raw_graph_ptr)
    (acc : snapshot) :
    (snap_part ranges acc → snap_part ranges (snapshot_raw_slot ranges s acc)) ∧
    (snap_rngs ranges acc → snap_rngs ranges (snapshot_raw_slot ranges s acc)) ∧
    (snap_mng acc → snap_mng (snapshot_raw_slot ranges s acc)) := by
  rcases snapshot_raw_slot_cases ranges s acc with
    ⟨-, heq⟩ | ⟨j, -, hrngs, hinfo, hks⟩
  · rw [heq]
    exact ⟨id, id, id⟩
  · set acc2 := snapshot_raw_slot ranges s acc with hacc2
    have hlen : acc2.info.length = acc.info.length + 1 := by rw [hinfo]; simp
    have hval : ∀ x, x < acc.info.length →
        nthD acc2.info x default = nthD acc.info x default := by
      intro x hx
      rw [hinfo]
      exact nthD_append_lt acc.info _ x default hx
    have hnew : nthD acc2.info acc.info.length default = ⟨s.addr, s.ptr, false, j⟩ := by
      rw [hinfo]
      exact nthD_append_self acc.info _ default
    refine ⟨?_, ?_, ?_⟩
    · rintro ⟨hp, hk, hs⟩
      rcases hks with ⟨hroot, hkeq, hseq⟩ | ⟨hroot, hkeq, hseq⟩
      · refine ⟨?_, ?_, ?_⟩
        · intro x hx
          rw [hlen] at hx
          rcases Nat.lt_or_ge x acc.info.length with h1 | h1
          · rcases hp x h1 with h2 | h2
            · exact Or.inl (by rw [hkeq]; exact List.mem_append_left _ h2)
            · exact Or.inr (by rw [hseq]; exact h2)
          · have hxv : x = acc.info.length := by omega
            subst hxv
            exact Or.inl (by rw [hkeq]; exact List.mem_append_right _ (by simp))
        · intro x hx
          rw [hkeq] at hx
          rcases List.mem_append.mp hx with h1 | h2
          · obtain ⟨hb, hf⟩ := hk x h1
            exact ⟨by omega, by rw [hval x hb]; exact hf⟩
          · simp at h2
            subst h2
            refine ⟨by omega, ?_⟩
            rw [hnew]
            exact hroot
        · intro x hx
          rw [hseq] at hx
          obtain ⟨hb, hf⟩ := hs x hx
          exact ⟨by omega, by rw [hval x hb]; exact hf⟩
      · refine ⟨?_, ?_, ?_⟩
        · intro x hx
          rw [hlen] at hx
          rcases Nat.lt_or_ge x acc.info.length with h1 | h1
          · rcases hp x h1 with h2 | h2
            · exact Or.inl (by rw [hkeq]; exact h2)
            · exact Or.inr (by rw [hseq]; exact List.mem_append_left _ h2)
          · have hxv : x = acc.info.length := by omega
            subst hxv
            exact Or.inr (by rw [hseq]; exact List.mem_append_right _ (by simp))
        · intro x hx
          rw [hkeq] at hx
          obtain ⟨hb, hf⟩ := hk x hx
          exact ⟨by omega, by rw [hval x hb]; exact hf⟩
        · intro x hx
          rw [hseq] at hx
          rcases List.mem_append.mp hx with h1 | h2
          · obtain ⟨hb, hf⟩ := hs x h1
            exact ⟨by omega, by rw [hval x hb]; exact hf⟩
          · simp at h2
            subst h2
            refine ⟨by omega, ?_⟩
            rw [hnew]
            exact hroot
    · rintro ⟨hl, hg⟩
      unfold snap_rngs
      rw [hrngs]
      refine ⟨by rw [(mark_managed_geom acc.rngs j false).1]; exact hl, ?_⟩
      intro k
      obtain ⟨h1, h2, h3⟩ := (mark_managed_geom acc.rngs j false).2 k
      obtain ⟨h4, h5, h6⟩ := hg k
      exact ⟨by rw [h1, h4], by rw [h2, h5], by rw [h3, h6]⟩
    · intro hm j2 hj2
      rw [hrngs] at hj2
      rcases mark_managed_flag acc.rngs j false j2 with h1 | ⟨h2, h3⟩
      · rw [h1] at hj2
        obtain ⟨x, hx, ho, hr⟩ := hm j2 hj2
        exact ⟨x, by omega, by rw [hval x hx]; exact ho, by rw [hval x hx]; exact hr⟩
      · rw [h3] at hj2
        simp at hj2

theorem snapshot_owning_props (ranges : List memory_range) :
    ∀ (slots : List graph_ptr) (acc res : snapshot),
      snapshot_owning ranges slots acc = some res →
      snap_part ranges acc → snap_rngs ranges acc → snap_mng acc →
      snap_part ranges res ∧ snap_rngs ranges res ∧ snap_mng res := by
  intro slots
  induction slots with
  | nil =>
    intro acc res h hp hr hm
    simp only [snapshot_owning] at h
    injection h with h2
    subst h2
    exact ⟨hp, hr, hm⟩
  | cons gp rest ih =>
    intro acc res h hp hr hm
    simp only [snapshot_owning] at h
    cases hstep : snapshot_owning_slot ranges gp acc with
    | none => rw [hstep] at h; simp at h
    | some acc2 =>
      rw [hstep] at h
      have h' : snapshot_owning ranges rest acc2 = some res := h
      obtain ⟨f1, f2, f3⟩ := snapshot_owning_slot_props ranges gp acc acc2 hstep
      exact ih acc2 res h' (f1 hp) (f2 hr) (f3 hm)

theorem snapshot_raw_props (ranges : List memory_range) :
    ∀ (slots : List raw_graph_ptr) (acc : snapshot),
      snap_part ranges acc → snap_rngs ranges acc → snap_mng acc →
      snap_part ranges (snapshot_raw ranges slots acc) ∧
        snap_rngs ranges (snapshot_raw ranges slots acc) ∧
        snap_mng (snapshot_raw ranges slots acc) := by
  intro slots
  induction slots with
  | nil => exact fun acc hp hr hm => ⟨hp, hr, hm⟩
  | cons rgp rest ih =>
    intro acc hp hr hm
    obtain ⟨f1, f2, f3⟩ := snapshot_raw_slot_props ranges rgp acc
    exact ih (snapshot_raw_slot ranges rgp acc) (f1 hp) (f2 hr) (f3 hm)

theorem nthD_init_rngs (ranges : List memory_range) (j : Nat) :
    nthD (init_snapshot ranges).rngs j default =
      ⟨(nthD ranges j default).rbegin, (nthD ranges j default).rend, false, false⟩ := by
  unfold init_snapshot
  induction ranges generalizing j with
  | nil =>
    cases j <;> rfl
  | cons r rest ih =>
    cases j with
    | zero => rfl
    | succ n => simpa [nthD] using ih n

theorem init_snapshot_props (ranges : List memory_range) :
    snap_part ranges (init_snapshot ranges) ∧
      snap_rngs ranges (init_snapshot ranges) ∧
      snap_mng (init_snapshot ranges) := by
  refine ⟨⟨?_, ?_, ?_⟩, ⟨by simp [init_snapshot], ?_⟩, ?_⟩
  · intro x hx
    simp [init_snapshot] at hx
  · intro x hx
    simp [init_snapshot] at hx
  · intro x hx
    simp [init_snapshot] at hx
  · intro j
    rw [nthD_init_rngs]
    exact ⟨rfl, rfl, rfl⟩
  · intro j hj
    rw [nthD_init_rngs] at hj
    simp at hj

theorem build_snapshot_parts (g : graph) (snap : snapshot)
    (h : build_snapshot g = some snap) :
    ∃ acc, snapshot_owning g.ranges g.pointers (init_snapshot g.ranges) = some acc ∧
      snap = snapshot_raw g.ranges g.rawPointers acc := by
  unfold build_snapshot at h
  cases hown : snapshot_owning g.ranges g.pointers (init_snapshot g.ranges) with
  | none => rw [hown] at h; simp at h
  | some acc =>
    rw [hown] at h
    have h' : some (snapshot_raw g.ranges g.rawPointers acc) = some snap := h
    injection h' with h2
    exact ⟨acc, rfl, h2.symm⟩

/-- The snapshot built by collect_impl satisfies the partition, mirror and
managed-origin invariants. -/
theorem build_snapshot_props (g : graph) (snap : snapshot)
    (h : build_snapshot g = some snap) :
    snap_part g.ranges snap ∧ snap_rngs g.ranges snap ∧ snap_mng snap := by
  obtain ⟨acc, hown, hsnap⟩ := build_snapshot_parts g snap h
  obtain ⟨i1, i2, i3⟩ := init_snapshot_props g.ranges
  obtain ⟨p1, p2, p3⟩ := snapshot_owning_props g.ranges g.pointers _ acc hown i1 i2 i3
  subst hsnap
  exact snapshot_raw_props g.ranges g.rawPointers acc p1 p2 p3

/-- Every record of the snapshot comes from a registered slot, owning
records from owning slots and observing records from observing slots, with
the stored range index produced by find_range_iterator on the referent. -/
theorem build_snapshot_rec_src (g : graph) (snap : snapshot)
    (h : build_snapshot g = some snap) :
    ∀ x, x < snap.info.length →
      (∃ s ∈ g.pointers, s.ref ≠ 0 ∧ ∃ j, find_range_iterator g.ranges s.ref = some j ∧
        nthD snap.info x default = ⟨s.addr, s.ref, true, j⟩) ∨
      (∃ s ∈ g.rawPointers, ∃ j, find_range_iterator g.ranges s.ptr = some j ∧
        nthD snap.info x default = ⟨s.addr, s.ptr, false, j⟩) := by
  obtain ⟨acc, hown, hsnap⟩ := build_snapshot_parts g snap h
  subst hsnap
  intro x hx
  rcases snapshot_raw_src g.ranges g.rawPointers acc x hx with h1 | h2
  · rcases snapshot_owning_src g.ranges g.pointers _ acc hown x h1 with h3 | ⟨s, hs, hr0, j, hj, hv⟩
    · simp [init_snapshot] at h3
    · refine Or.inl ⟨s, hs, hr0, j, hj, ?_⟩
      rw [(snapshot_raw_info_mono g.ranges g.rawPointers acc).2 x h1]
      exact hv
  · exact Or.inr h2

/-- Every non-null owning slot has a record in the final snapshot. -/
theorem build_snapshot_owning_rec (g : graph) (snap : snapshot)
    (h : build_snapshot g = some snap) (s : graph_ptr) (hs : s ∈ g.pointers)
    (hr0 : s.ref ≠ 0) :
    ∃ x, x < snap.info.length ∧ ∃ j, find_range_iterator g.ranges s.ref = some j ∧
      nthD snap.info x default = ⟨s.addr, s.ref, true, j⟩ := by
  obtain ⟨acc, hown, hsnap⟩ := build_snapshot_parts g snap h
  subst hsnap
  obtain ⟨x, hx, j, hj, hv⟩ :=
    snapshot_owning_slot_rec g.ranges g.pointers _ acc hown s hs hr0
  obtain ⟨hle, hpres⟩ := snapshot_raw_info_mono g.ranges g.rawPointers acc
  exact ⟨x, by omega, j, hj, by rw [hpres x hx]; exact hv⟩

/-- Every observing slot whose referent is attributed to a range has a
record in the final snapshot. -/
theorem build_snapshot_raw_rec (g : graph) (snap : snapshot)
    (h : build_snapshot g = some snap) (s : raw_graph_ptr) (hs : s ∈ g.rawPointers)
    (j : Nat) (hj : find_range_iterator g.ranges s.ptr = some j) :
    ∃ x, x < snap.info.length ∧
      nthD snap.info x default = ⟨s.addr, s.ptr, false, j⟩ := by
  obtain ⟨acc, hown, hsnap⟩ := build_snapshot_parts g snap h
  subst hsnap
  exact snapshot_raw_slot_rec g.ranges g.rawPointers acc s hs j hj

/-- The snapshot phase succeeds when every non-null owning slot's referent
is attributed to some range. -/
theorem build_snapshot_some (g : graph)
    (hc : ∀ s ∈ g.pointers, s.ref ≠ 0 → find_range_iterator g.ranges s.ref ≠ none) :
    ∃ snap, build_snapshot g = some snap := by
  obtain ⟨acc, hown⟩ :=
    snapshot_owning_total g.ranges g.pointers (init_snapshot g.ranges) hc
  refine ⟨snapshot_raw g.ranges g.rawPointers acc, ?_⟩
  unfold build_snapshot
  rw [hown]

theorem mark_loop_rngs_len (info : List scan_info) :
    ∀ (fuel : Nat) (rngs : List range_mark) (keep scan : List Nat) (i : Nat)
      (res : List range_mark × List Nat × List Nat),
      mark_loop info fuel rngs keep scan i = some res →
      res.1.length = rngs.length := by
  intro fuel
  induction fuel with
  | zero => intro rngs keep scan i res h; simp [mark_loop] at h
  | succ n ih =>
    intro rngs keep scan i res h
    simp only [mark_loop] at h
    by_cases hi : i = keep.length
    · rw [if_pos hi] at h
      injection h with h2
      subst h2
      rfl
    · rw [if_neg hi] at h
      by_cases hs : (nthD rngs (nthD info (nthD keep i 0) default).rangeIdx default).scanned
      · rw [if_pos hs] at h
        exact ih _ _ _ _ _ h
      · rw [if_neg hs] at h
        rw [ih _ _ _ _ _ h]
        exact length_setIdx _ _ _

theorem build_snapshot_rangeIdx_lt (g : graph) (snap : snapshot)
    (h : build_snapshot g = some snap) :
    ∀ x, x < snap.info.length →
      (nthD snap.info x default).rangeIdx < g.ranges.length := by
  intro x hx
  rcases build_snapshot_rec_src g snap h x hx with
    ⟨s, -, -, j, hj, hv⟩ | ⟨s, -, j, hj, hv⟩ <;>
    (rw [hv]; exact (find_range_iterator_some _ _ _ hj).2.1)

/-- The snapshot arrays satisfy the mark invariant at the start of the mark
loop. -/
theorem snap_mark_inv_init (g : graph) (snap : snapshot)
    (h : build_snapshot g = some snap) :
    mark_inv snap.info snap.rngs snap.keep snap.scan := by
  obtain ⟨⟨hp, hk, hs⟩, ⟨hlen, hg⟩, -⟩ := build_snapshot_props g snap h
  refine ⟨hp, ?_, ?_⟩
  · intro x hx hc
    exact (hs x hx).2 (hk x hc).2
  · intro j hj hsc
    rw [(hg j).2.2] at hsc
    exact absurd hsc (by simp)

theorem snap_keep_bound (g : graph) (snap : snapshot)
    (h : build_snapshot g = some snap) :
    (∀ x ∈ snap.keep, (nthD snap.info x default).rangeIdx < snap.rngs.length) ∧
    (∀ x ∈ snap.scan, (nthD snap.info x default).rangeIdx < snap.rngs.length) := by
  obtain ⟨⟨hp, hk, hs⟩, ⟨hlen, -⟩, -⟩ := build_snapshot_props g snap h
  constructor
  · intro x hx
    rw [hlen]
    exact build_snapshot_rangeIdx_lt g snap h x (hk x hx).1
  · intro x hx
    rw [hlen]
    exact build_snapshot_rangeIdx_lt g snap h x (hs x hx).1

/-- Characterization of a completed collection. -/
theorem collect_impl_eq (g : graph) (snap : snapshot) (rngsF : List range_mark)
    (keepF scanF : List Nat) (hc : g.collecting = false)
    (hsnap : build_snapshot g = some snap)
    (hm : mark_loop snap.info (mark_fuel snap) snap.rngs snap.keep snap.scan 0 =
      some (rngsF, keepF, scanF)) :
    collect_impl g = (g, some (sweep snap.info rngsF scanF)) := by
  unfold collect_impl
  rw [if_neg (by simp [hc])]
  simp only [hsnap, hm]

theorem sweep_mem (info : List scan_info) (rngs : List range_mark)
    (scanF : List Nat) (e : garbage_entry) (he : e ∈ sweep info rngs scanF) :
    e.1 ∈ scanF ∧ e.2 = nthD info e.1 default ∧
      (nthD rngs (nthD info e.1 default).rangeIdx default).managed = true := by
  unfold sweep at he
  rcases List.mem_filterMap.mp he with ⟨idx, hidx, hf⟩
  split at hf
  · rename_i hmng
    injection hf with h2
    subst h2
    exact ⟨hidx, rfl, hmng⟩
  · simp at hf

/-- Every range reachable in the sense of the spec holds a record in the
final keep list of the mark loop. -/
theorem reach_keep (g : graph) (snap : snapshot)
    (h : build_snapshot g = some snap)
    (res : List range_mark × List Nat × List Nat)
    (hm : mark_loop snap.info (mark_fuel snap) snap.rngs snap.keep snap.scan 0 =
      some res) :
    ∀ j, reachable g j →
      ∃ x, x < snap.info.length ∧ (nthD snap.info x default).rangeIdx = j ∧
        x ∈ res.2.1 := by
  have hprops := build_snapshot_props g snap h
  obtain ⟨⟨hp, hk, hs⟩, ⟨hrlen, hg⟩, -⟩ := hprops
  have hfinv := mark_loop_inv snap.info _ _ _ _ _ _ hm (snap_mark_inv_init g snap h)
  have hflen := mark_loop_rngs_len snap.info _ _ _ _ _ _ hm
  have hgeom := mark_loop_geom snap.info _ _ _ _ _ _ hm
  have hks := mark_loop_keep_scanned snap.info _ _ _ _ _ _ hm (by omega)
    (snap_keep_bound g snap h).1 (snap_keep_bound g snap h).2 (by omega)
  -- transfer of interval data: the final rngs mirror the ranges
  have htrans : ∀ j, (nthD res.1 j default).rbegin = (nthD g.ranges j default).rbegin ∧
      (nthD res.1 j default).rend = (nthD g.ranges j default).rend := by
    intro j
    obtain ⟨h1, h2, -⟩ := hgeom j
    obtain ⟨h3, h4, -⟩ := hg j
    exact ⟨by rw [h1, h3], by rw [h2, h4]⟩
  intro j hreach
  induction hreach with
  | root s j hsm hr0 hout hj =>
    obtain ⟨x, hx, j2, hj2, hv⟩ := build_snapshot_owning_rec g snap h s hsm hr0
    have hj2j : j2 = j := by
      rw [hj] at hj2
      injection hj2 with hh
      exact hh.symm
    have hnone : find_range_iterator g.ranges s.addr = none := by
      cases hfi : find_range_iterator g.ranges s.addr with
      | none => rfl
      | some k =>
        obtain ⟨-, hkl, hcl⟩ := find_range_iterator_some _ _ _ hfi
        exact absurd hcl (hout _ (nthD_mem _ k default hkl))
    have hxkeep : x ∈ snap.keep := by
      rcases hp x hx with h1 | h1
      · exact h1
      · exact absurd (by rw [hv]; exact hnone) (hs x h1).2
    refine ⟨x, hx, by rw [hv, hj2j], ?_⟩
    exact mark_loop_keep_mono snap.info _ _ _ _ _ _ hm x hxkeep
  | step_owning s j k hreach2 hsm hr0 hhalf hkf ih =>
    obtain ⟨x', hx', hr', hkeep'⟩ := ih
    have hjlt : j < g.ranges.length := by
      have := build_snapshot_rangeIdx_lt g snap h x' hx'
      omega
    have hscan : (nthD res.1 j default).scanned = true := by
      have := hks x' hkeep'
      rw [hr'] at this
      exact this
    obtain ⟨x, hx, j2, hj2, hv⟩ := build_snapshot_owning_rec g snap h s hsm hr0
    have hj2k : j2 = k := by
      rw [hkf] at hj2
      injection hj2 with hh
      exact hh.symm
    refine ⟨x, hx, by rw [hv, hj2k], ?_⟩
    refine hfinv.2.2 j (by omega) hscan x hx ?_
    obtain ⟨ht1, ht2⟩ := htrans j
    rw [hv]
    exact ⟨by rw [ht1]; exact hhalf.1, by rw [ht2]; exact hhalf.2⟩
  | step_raw s j k hreach2 hsm hhalf hkf ih =>
    obtain ⟨x', hx', hr', hkeep'⟩ := ih
    have hjlt : j < g.ranges.length := by
      have := build_snapshot_rangeIdx_lt g snap h x' hx'
      omega
    have hscan : (nthD res.1 j default).scanned = true := by
      have := hks x' hkeep'
      rw [hr'] at this
      exact this
    obtain ⟨x, hx, hv⟩ := build_snapshot_raw_rec g snap h s hsm k hkf
    refine ⟨x, hx, by rw [hv], ?_⟩
    refine hfinv.2.2 j (by omega) hscan x hx ?_
    obtain ⟨ht1, ht2⟩ := htrans j
    rw [hv]
    exact ⟨by rw [ht1]; exact hhalf.1, by rw [ht2]; exact hhalf.2⟩

/-! ### Remaining claim theorems -/

theorem collect_impl_guard (g : graph) (hc : g.collecting = true) :
    collect_impl g = (g, some []) := by
  unfold collect_impl
  rw [if_pos hc]

theorem bool_eq_false_of_ne_true (b : Bool) (h : ¬ b = true) : b = false := by
  cases b
  · rfl
  · exact absurd rfl h

/-- C7: entering collect_impl while the in-progress flag is set returns an
empty garbage batch and leaves the graph state (range index, registries,
flag) unchanged. -/
theorem c7_thm (g : graph) (hc : g.collecting = true) :
    collect_impl g = (g, some []) :=
  collect_impl_guard g hc

/-- C7 witness. -/
theorem c7_witness :
    collect_impl ⟨[⟨100, 200⟩], [⟨10, 150⟩], [], true⟩ =
      (⟨[⟨100, 200⟩], [⟨10, 150⟩], [], true⟩, some []) :=
  c7_thm ⟨[⟨100, 200⟩], [⟨10, 150⟩], [], true⟩ rfl

/-- C8: for every finite snapshot the mark loop terminates: the iteration
budget 2|scan| + |keep| + 1 used by collect_impl always suffices, because
each outer iteration strictly decreases 2|scan| + (|keep| - i). -/
theorem c8_thm (snap : snapshot) :
    ∃ res, mark_loop snap.info (mark_fuel snap) snap.rngs snap.keep snap.scan 0 =
      some res :=
  mark_loop_fuel snap.info _ _ _ _ 0 (Nat.zero_le _) (by unfold mark_fuel; omega)

/-- The concrete snapshot of claim C9's out-of-bounds case: a non-null
owning slot whose referent 500 lies outside the only range. -/
def c9bad : graph := ⟨[⟨100, 200⟩], [⟨10, 500⟩], [], false⟩

/-- C9: under the index invariant, when every non-null owning slot's
referent lies (inclusively) in some registered range, the snapshot phase
performs only in-bounds accesses to rngs (modelled: it succeeds); and there
is a snapshot - c9bad - with a non-null owning slot whose referent is in no
range, where find_range_iterator yields the end iterator and the access
rngs[ranges.size()] is out of bounds (modelled: the snapshot is none). -/
theorem c9_thm (g : graph) (hinv : index_inv g.ranges)
    (hc : ∀ s ∈ g.pointers, s.ref ≠ 0 → ∃ r ∈ g.ranges, inClosed s.ref r) :
    (∃ snap, build_snapshot g = some snap) ∧
      build_snapshot c9bad = none ∧
      find_range_iterator c9bad.ranges 500 = none := by
  refine ⟨?_, by decide, by decide⟩
  apply build_snapshot_some
  intro s hs hr0
  obtain ⟨r, hr, hcl⟩ := hc s hs hr0
  obtain ⟨i, hi, hiv⟩ := (mem_iff_nthD g.ranges r default).mp hr
  obtain ⟨jj, hj, -⟩ := find_range_iterator_mem hinv hi hr0 (by rw [hiv]; exact hcl)
  rw [hj]
  simp

/-- C9 witness. -/
theorem c9_witness :
    (∃ snap, build_snapshot ⟨[⟨100, 200⟩], [⟨10, 150⟩], [], false⟩ = some snap) ∧
      build_snapshot c9bad = none ∧
      find_range_iterator c9bad.ranges 500 = none :=
  c9_thm ⟨[⟨100, 200⟩], [⟨10, 150⟩], [], false⟩
    (by constructor <;> decide) (by decide)

/-- C10: a registered slot whose storage equals the end of a range R and
lies in no range's half-open interior is classified as interior by the
snapshot (the root test uses the inclusive containment of find_range), yet
the mark loop never moves its record out of scan, because the fold test
uses the half-open interval: the record ends in the final scan list and
never reaches keep. -/
theorem c10_thm (g : graph) (snap : snapshot)
    (hsnap : build_snapshot g = some snap) (hinv : index_inv g.ranges)
    (x : Nat) (hx : x < snap.info.length) (R : memory_range) (hR : R ∈ g.ranges)
    (haddr : (nthD snap.info x default).gp = R.rend)
    (hno : ∀ r ∈ g.ranges, ¬ inHalf (nthD snap.info x default).gp r) :
    x ∈ snap.scan ∧ x ∉ snap.keep ∧
      ∀ res, mark_loop snap.info (mark_fuel snap) snap.rngs snap.keep snap.scan 0 =
        some res → x ∈ res.2.2 ∧ x ∉ res.2.1 := by
  obtain ⟨⟨hp, hk, hs⟩, ⟨hrlen, hg⟩, -⟩ := build_snapshot_props g snap hsnap
  have hwfR := hinv.1 R hR
  have hfsome : find_range_iterator g.ranges (nthD snap.info x default).gp ≠ none := by
    obtain ⟨i, hi, hiv⟩ := (mem_iff_nthD g.ranges R default).mp hR
    have hcl : inClosed (nthD snap.info x default).gp (nthD g.ranges i default) := by
      rw [hiv, haddr]
      exact ⟨by omega, le_refl _⟩
    obtain ⟨jj, hj, -⟩ := find_range_iterator_mem hinv hi (by omega) hcl
    rw [hj]
    simp
  have hxscan : x ∈ snap.scan := by
    rcases hp x hx with h1 | h1
    · exact absurd (hk x h1).2 hfsome
    · exact h1
  have hxnk : x ∉ snap.keep := fun hc => hfsome (hk x hc).2
  have hnoneM : ∀ j, ¬ inHalfM (nthD snap.info x default).gp (nthD snap.rngs j default) := by
    intro j hh
    obtain ⟨h1, h2, -⟩ := hg j
    rcases Nat.lt_or_ge j g.ranges.length with hjl | hjl
    · exact hno (nthD g.ranges j default) (nthD_mem _ j default hjl)
        ⟨by rw [← h1]; exact hh.1, by rw [← h2]; exact hh.2⟩
    · rw [nthD_oob g.ranges j default (by omega)] at h2
      have h3 := hh.2
      rw [h2] at h3
      have hde : (default : memory_range).rend = 0 := rfl
      omega
  refine ⟨hxscan, hxnk, ?_⟩
  intro res hm
  constructor
  · exact mark_loop_scan_out snap.info _ _ _ _ _ _ hm x hxscan hnoneM
  · intro hc
    rcases mark_loop_keep_origin snap.info _ _ _ _ _ _ hm x hc with h1 | ⟨j, hjl, hjh⟩
    · exact hxnk h1
    · exact hnoneM j hjh

/-- The concrete snapshot for the C10 witness: the slot's storage 200 is the
end of range 0 and in no half-open interior; its referent 350 lies in
range 1. -/
def c10g : graph := ⟨[⟨100, 200⟩, ⟨300, 400⟩], [⟨200, 350⟩], [], false⟩

/-- Its snapshot as computed by build_snapshot. -/
def c10snap : snapshot :=
  ⟨[⟨100, 200, false, false⟩, ⟨300, 400, true, false⟩],
    [⟨200, 350, true, 1⟩], [], [0]⟩

/-- C10 witness. -/
theorem c10_witness :
    0 ∈ c10snap.scan ∧ 0 ∉ c10snap.keep ∧
      ∀ res, mark_loop c10snap.info (mark_fuel c10snap) c10snap.rngs c10snap.keep
        c10snap.scan 0 = some res → 0 ∈ res.2.2 ∧ 0 ∉ res.2.1 :=
  c10_thm c10g c10snap (by decide) (by constructor <;> decide) 0 (by decide)
    ⟨100, 200⟩ (by decide) (by decide) (by decide)

theorem collect_impl_none (g : graph) (hc : g.collecting = false)
    (h : build_snapshot g = none) : collect_impl g = (g, none) := by
  unfold collect_impl
  rw [if_neg (by simp [hc])]
  simp only [h]

/-- C1 amended: for every snapshot taken by collect(), every range j that is
the target of a non-null owning slot which is itself a root or stored inside
a range reachable from a root slot retains a strong reference outside the
garbage batch: that owning slot's record ends in the keep list and its entry
is absent from the batch.  (As stated, the claim is false - see the
counterexample - because a strong reference to a reachable object held by an
owning slot that is itself unreachable is moved into the batch.) -/
theorem c1_amended_thm (g : graph) (snap : snapshot)
    (hsnap : build_snapshot g = some snap) (j : Nat)
    (hro : reachable_owned g j) :
    ∃ x, x < snap.info.length ∧ (nthD snap.info x default).isOwning = true ∧
      (nthD snap.info x default).rangeIdx = j ∧
      ∀ l, (collect_impl g).2 = some l → ∀ e ∈ l, e.1 ≠ x := by
  obtain ⟨⟨rngsF, keepF, scanF⟩, hm⟩ :=
    mark_loop_fuel snap.info (mark_fuel snap) snap.rngs snap.keep snap.scan 0
      (Nat.zero_le _) (by unfold mark_fuel; omega)
  obtain ⟨s, hsm, hr0, hjf, hcase⟩ := hro
  obtain ⟨x, hx, j2, hj2, hv⟩ := build_snapshot_owning_rec g snap hsnap s hsm hr0
  have hj2j : j2 = j := by
    rw [hjf] at hj2
    injection hj2 with hh
    exact hh.symm
  obtain ⟨⟨hp, hk, hs'⟩, ⟨hrlen, hg⟩, -⟩ := build_snapshot_props g snap hsnap
  have hfinv := mark_loop_inv snap.info _ _ _ _ _ _ hm (snap_mark_inv_init g snap hsnap)
  have hxkeep : x ∈ keepF := by
    rcases hcase with hroot | ⟨j2', hreach2, hhalf⟩
    · have hnone : find_range_iterator g.ranges s.addr = none := by
        cases hfi : find_range_iterator g.ranges s.addr with
        | none => rfl
        | some k =>
          obtain ⟨-, hkl, hcl⟩ := find_range_iterator_some _ _ _ hfi
          exact absurd hcl (hroot _ (nthD_mem _ k default hkl))
      have hxk0 : x ∈ snap.keep := by
        rcases hp x hx with h1 | h1
        · exact h1
        · exact absurd (by rw [hv]; exact hnone) (hs' x h1).2
      exact mark_loop_keep_mono snap.info _ _ _ _ _ _ hm x hxk0
    · obtain ⟨x', hx', hr', hkeep'⟩ :=
        reach_keep g snap hsnap ⟨rngsF, keepF, scanF⟩ hm j2' hreach2
      have hj2lt : j2' < g.ranges.length := by
        have := build_snapshot_rangeIdx_lt g snap hsnap x' hx'
        omega
      have hks := mark_loop_keep_scanned snap.info _ _ _ _ _ _ hm (by omega)
        (snap_keep_bound g snap hsnap).1 (snap_keep_bound g snap hsnap).2 (by omega)
      have hscan : (nthD rngsF j2' default).scanned = true := by
        have := hks x' hkeep'
        rw [hr'] at this
        exact this
      have hflen := mark_loop_rngs_len snap.info _ _ _ _ _ _ hm
      have hgeom := mark_loop_geom snap.info _ _ _ _ _ _ hm
      have hflen2 : rngsF.length = snap.rngs.length := hflen
      refine hfinv.2.2 j2' ?_ hscan x hx ?_
      · show j2' < rngsF.length
        omega
      · obtain ⟨h1, h2, -⟩ := hgeom j2'
        obtain ⟨h3, h4, -⟩ := hg j2'
        have h1a : (nthD rngsF j2' default).rbegin =
            (nthD g.ranges j2' default).rbegin := by rw [← h3]; exact h1
        have h2a : (nthD rngsF j2' default).rend =
            (nthD g.ranges j2' default).rend := by rw [← h4]; exact h2
        refine ⟨?_, ?_⟩
        · show (nthD rngsF j2' default).rbegin ≤ (nthD snap.info x default).gp
          rw [h1a, hv]
          exact hhalf.1
        · show (nthD snap.info x default).gp < (nthD rngsF j2' default).rend
          rw [h2a, hv]
          exact hhalf.2
  refine ⟨x, hx, by rw [hv], by rw [hv]; exact hj2j, ?_⟩
  intro l hl e he
  by_cases hcb : g.collecting
  · rw [collect_impl_guard g hcb] at hl
    have hl' : some ([] : List garbage_entry) = some l := hl
    injection hl' with hl2
    subst hl2
    simp at he
  · have hcf : g.collecting = false := bool_eq_false_of_ne_true _ hcb
    rw [collect_impl_eq g snap rngsF keepF scanF hcf hsnap hm] at hl
    have hl' : some (sweep snap.info rngsF scanF) = some l := hl
    injection hl' with hl2
    subst hl2
    obtain ⟨hescan, -, -⟩ := sweep_mem snap.info rngsF scanF e he
    intro hex
    exact hfinv.2.1 e.1 hescan (hex ▸ hxkeep)

/-- The state of the C1 counterexample: range 0 is reachable from the root
owning slot at address 10; the owning slots at 350 and 360 live inside the
unreachable self-owned range 1, and the one at 350 holds a strong reference
into range 0. -/
def c1cex : graph :=
  ⟨[⟨100, 200⟩, ⟨300, 400⟩], [⟨10, 150⟩, ⟨350, 160⟩, ⟨360, 310⟩], [], false⟩

/-- C1 counterexample: range 0 is transitively reachable from a root owning
slot, yet the garbage batch returned by collect() contains a strong
reference into range 0 (the one held by the dead slot at address 350).  So
the claim that every reachable object's strong reference is absent from the
batch is false as stated. -/
theorem c1_counterexample :
    reachable c1cex 0 ∧
      ∃ l, (collect_impl c1cex).2 = some l ∧
        ∃ e ∈ l, (e.2).isOwning = true ∧ (e.2).rangeIdx = 0 := by
  constructor
  · exact reachable.root ⟨10, 150⟩ 0 (by decide) (by decide) (by decide) (by decide)
  · exact ⟨[(1, ⟨350, 160, true, 0⟩), (2, ⟨360, 310, true, 1⟩)], by decide,
      (1, ⟨350, 160, true, 0⟩), by decide, by decide, by decide⟩

/-- The state and snapshot for the C1 witness: one range, one root owning
slot referring into it. -/
def c1wg : graph := ⟨[⟨100, 200⟩], [⟨10, 150⟩], [], false⟩

def c1wsnap : snapshot :=
  ⟨[⟨100, 200, true, false⟩], [⟨10, 150, true, 0⟩], [0], []⟩

/-- C1 witness. -/
theorem c1_witness :
    ∃ x, x < c1wsnap.info.length ∧
      (nthD c1wsnap.info x default).isOwning = true ∧
      (nthD c1wsnap.info x default).rangeIdx = 0 ∧
      ∀ l, (collect_impl c1wg).2 = some l → ∀ e ∈ l, e.1 ≠ x :=
  c1_amended_thm c1wg c1wsnap (by decide) 0
    ⟨⟨10, 150⟩, by decide, by decide, by decide, Or.inl (by decide)⟩

/-- The C2 failing input: the owning slot at 150 (inside the only range)
holds a strong reference to 160 (inside the same range); the observing slot
at 155 (also inside) watches 170.  There is no root, so the claim expects
the object's strong reference in the batch. -/
def c2state : graph := ⟨[⟨100, 200⟩], [⟨150, 160⟩], [⟨155, 170⟩], false⟩

/-- C2 evaluation at the failing input: the owning slot targets range 0, yet
the observing pass clobbers the managed flag back to false
(gc.cpp 142: si.range->managed = false), the keep seeds are empty, and the
returned batch is empty - the object leaks although every owning slot
referring to it lies in an allocation with no external root.  This
contradicts the claim (and the spec's definition of the managed mark),
exposing the slip in the code. -/
theorem c2_code_bug_eval :
    (collect_impl c2state).2 = some [] ∧
      (build_snapshot c2state).map (fun s => (nthD s.rngs 0 default).managed) =
        some false ∧
      (∃ s ∈ c2state.pointers, s.ref ≠ 0 ∧
        find_range_iterator c2state.ranges s.ref = some 0) ∧
      (build_snapshot c2state).map (fun s => s.keep) = some [] := by
  refine ⟨by decide, by decide, ⟨⟨150, 160⟩, by decide, by decide, by decide⟩, by decide⟩

/-- The C5 counterexample state: object X occupies the only range; a
stack-held observing slot at 50 points at 150 inside X; no owning slot
exists at all. -/
def c5state : graph := ⟨[⟨100, 200⟩], [], [⟨50, 150⟩], false⟩

/-- C5 counterexample: X is referred to only by an observing slot, yet the
garbage batch of collect() is empty - it does not contain X, contradicting
the claim, because the registry holds no strong reference to X that the
sweep could extract, and observing slots alone never set the managed flag. -/
theorem c5_counterexample :
    c5state.pointers = [] ∧
      find_range_iterator c5state.ranges 150 = some 0 ∧
      (collect_impl c5state).2 = some [] := by
  decide

/-- C5 amended: when no non-null owning slot's referent is attributed to
range j (the object there is referred to by observing slots at most), the
garbage batch returned by collect() contains no entry targeting range j:
such an object is never handed to the destruction sink, because the graph
holds no strong reference to it and its range is never marked managed. -/
theorem c5_amended_thm (g : graph) (j : Nat)
    (hno : ∀ s ∈ g.pointers, s.ref ≠ 0 →
      find_range_iterator g.ranges s.ref ≠ some j) :
    ∀ l, (collect_impl g).2 = some l → ∀ e ∈ l, (e.2).rangeIdx ≠ j := by
  intro l hl e he
  by_cases hcb : g.collecting
  · rw [collect_impl_guard g hcb] at hl
    have hl' : some ([] : List garbage_entry) = some l := hl
    injection hl' with hl2
    subst hl2
    simp at he
  · have hcf : g.collecting = false := bool_eq_false_of_ne_true _ hcb
    cases hsnap : build_snapshot g with
    | none =>
      rw [collect_impl_none g hcf hsnap] at hl
      have hl' : (none : Option (List garbage_entry)) = some l := hl
      simp at hl'
    | some snap =>
      obtain ⟨⟨rngsF, keepF, scanF⟩, hm⟩ :=
        mark_loop_fuel snap.info (mark_fuel snap) snap.rngs snap.keep snap.scan 0
          (Nat.zero_le _) (by unfold mark_fuel; omega)
      rw [collect_impl_eq g snap rngsF keepF scanF hcf hsnap hm] at hl
      have hl' : some (sweep snap.info rngsF scanF) = some l := hl
      injection hl' with hl2
      subst hl2
      obtain ⟨hescan, hev, hmng⟩ := sweep_mem snap.info rngsF scanF e he
      obtain ⟨⟨hp, hk, hs'⟩, ⟨hrlen, hg⟩, hmg⟩ := build_snapshot_props g snap hsnap
      have hgeom := mark_loop_geom snap.info _ _ _ _ _ _ hm
      intro hej
      -- the target range of e's record is managed in the final rngs, hence
      -- in the snapshot rngs, hence targeted by some owning record
      have hmng0 : (nthD snap.rngs (nthD snap.info e.1 default).rangeIdx default).managed
          = true := by
        obtain ⟨-, -, h3⟩ := hgeom (nthD snap.info e.1 default).rangeIdx
        simp only at h3
        rw [← h3]
        exact hmng
      obtain ⟨x, hx, ho, hr⟩ := hmg _ hmng0
      rcases build_snapshot_rec_src g snap hsnap x hx with
        ⟨s, hsm, hr0, j2, hj2, hv⟩ | ⟨s, hsm, j2, hj2, hv⟩
      · apply hno s hsm hr0
        rw [hj2]
        have : (nthD snap.info x default).rangeIdx = j2 := by rw [hv]
        have hje : (nthD snap.info e.1 default).rangeIdx = j := by
          rw [← hev]
          exact hej
        rw [hje] at hr
        rw [hr] at this
        rw [this]
      · rw [hv] at ho
        simp at ho

/-- The C5 witness state: no owning slot refers into range 0 (the only
owning slot is the self-cycle of range 1), while an observing stack slot
watches range 0; the resulting batch holds one entry, which targets
range 1, not range 0. -/
def c5wg : graph := ⟨[⟨100, 200⟩, ⟨300, 400⟩], [⟨350, 310⟩], [⟨50, 150⟩], false⟩

/-- C5 amended witness. -/
theorem c5_witness :
    (((0 : Nat), (⟨350, 310, true, 1⟩ : scan_info)) : garbage_entry).2.rangeIdx ≠ 0 :=
  c5_amended_thm c5wg 0 (by decide) [((0 : Nat), (⟨350, 310, true, 1⟩ : scan_info))]
    (by decide) ((0 : Nat), (⟨350, 310, true, 1⟩ : scan_info)) (by decide)
